import Mathlib

/-!
# Normalisation of a parse tree into serialisable node views

A shallow embedding of `parser.go`: the result types `Result` and `ASTNode`, the recursive
normaliser `convertToSimpleAST`, its reflective field walk `extractChildNodes`, and the envelope
built by `parse_sql`.

Go values are embedded as follows.

* A Go slice is either the nil slice or a (possibly empty) backed sequence: `Slice`.
* A `map[string]interface{}` is a key-unique association list, `DataMap`; a nil map is
  `none : Option DataMap`. Assigning to an entry of a nil map is a run-time failure.
* An `ast.Node` interface value is either nil or a dynamic value `Dyn`; what `reflect` can see
  of a dynamic value is given by `Value`, `Field` and `FieldValue`.
* A function that can fail at run time returns `Option`, `none` being the failure.
* `Restore` belongs to the parser library. Its two returning outcomes are part of a node;
  whether it panics on a node is a parameter of the functions named `OrPanic`.
-/

namespace MysqlParser

/-! ## Go slices and maps -/

/-- A Go slice value: the nil slice, or a slice over the listed elements. -/
inductive Slice (α : Type) where
  | nil : Slice α
  | mk (elems : List α) : Slice α
  deriving Repr

/-- The elements of a slice, in index order; the nil slice has none. -/
def Slice.toList {α : Type} : Slice α → List α
  | .nil => []
  | .mk elems => elems

/-- Go `len(s)`. -/
def Slice.len {α : Type} (s : Slice α) : Nat := s.toList.length

/-- Go `append(s, x)`: the result is never the nil slice. -/
def Slice.append {α : Type} (s : Slice α) (x : α) : Slice α := .mk (s.toList ++ [x])

/-- Go `s == nil` for a slice. -/
def Slice.isNil {α : Type} : Slice α → Bool
  | .nil => true
  | .mk _ => false

/-- The values stored in `ASTNode.Data`: Go strings and Go ints, boxed in `interface{}`. -/
inductive DataVal where
  | str (s : String) : DataVal
  | int (n : Nat) : DataVal
  deriving DecidableEq, Repr

/-- A non-nil `map[string]interface{}`: an association list holding each key at most once. -/
abbrev DataMap := List (String × DataVal)

/-- Go `m[k]` with the comma-ok form: the value stored under `k`, if any. -/
def DataMap.get (m : DataMap) (k : String) : Option DataVal :=
  match m with
  | [] => none
  | (k', v) :: rest => if k' = k then some v else DataMap.get rest k

/-- Go `m[k] = v` on a non-nil map: the entry under `k` is replaced or added. -/
def DataMap.set (m : DataMap) (k : String) (v : DataVal) : DataMap :=
  match m with
  | [] => [(k, v)]
  | (k', v') :: rest => if k' = k then (k, v) :: rest else (k', v') :: DataMap.set rest k v

/-! ## The result types of `parser.go` -/

/-- The struct `ASTNode` (lines 24-29): `Type`, `Text`, `Children`, `Data`.
`Data = none` is the nil map. -/
inductive ASTNode where
  | mk (Type_ : String) (Text : String) (Children : Slice ASTNode) (Data : Option DataMap) :
      ASTNode
  deriving Repr

/-- Field `Type` of an `ASTNode`. -/
def ASTNode.Type_ : ASTNode → String
  | .mk t _ _ _ => t

/-- Field `Text` of an `ASTNode`. -/
def ASTNode.Text : ASTNode → String
  | .mk _ t _ _ => t

/-- Field `Children` of an `ASTNode`. -/
def ASTNode.Children : ASTNode → Slice ASTNode
  | .mk _ _ c _ => c

/-- Field `Data` of an `ASTNode`. -/
def ASTNode.Data : ASTNode → Option DataMap
  | .mk _ _ _ d => d

/-- The zero value `ASTNode{}` returned for a nil node (line 33): empty strings, nil slice,
nil map. -/
def ASTNode.zero : ASTNode := .mk "" "" .nil none

/-- Go `n.Data[k] = v` (lines 102, 114, 115, 126): fails when `n.Data` is the nil map. -/
def ASTNode.setData (n : ASTNode) (k : String) (v : DataVal) : Option ASTNode :=
  match n with
  | .mk _ _ _ none => none
  | .mk t x c (some m) => some (.mk t x c (some (m.set k v)))

/-- Reading `n.Data[k]`; a nil map holds no entry. -/
def ASTNode.dataGet (n : ASTNode) (k : String) : Option DataVal :=
  match n.Data with
  | none => none
  | some m => m.get k

/-- The struct `Result` (lines 17-21). `AST` has type `interface{}`: `none` is the nil
interface, `some s` an interface holding the `[]ASTNode` value `s` (which may be the nil
slice). -/
structure Result where
  Success : Bool
  Error : String
  AST : Option (Slice ASTNode)

/-! ## Parse-tree nodes as seen through `ast.Node` and `reflect` -/

/-- What the dynamic type of a node determines: its name as printed by `%T`, and which of the
four category interfaces of the type switch (lines 53-62) it implements. -/
structure NodeType where
  name : String
  isStmt : Bool
  isExpr : Bool
  isDDL : Bool
  isDML : Bool
  deriving DecidableEq, Repr

/-- The outcome of `node.Restore(ctx)` (line 41): `ok text` when the returned error is nil,
`text` being what was written to the buffer; `err` when an error is returned. These are
the two outcomes in which the call returns, and `convertDyn` is the normaliser on them; the
call can also panic, which the functions named `OrPanic` add. -/
inductive RestoreResult where
  | ok (text : String) : RestoreResult
  | err : RestoreResult
  deriving DecidableEq, Repr

mutual
/-- A non-nil `ast.Node` interface value: its dynamic type, what `Restore` does on it, and
the value that `reflect.ValueOf` sees. -/
inductive Dyn where
  | mk (ty : NodeType) (restore : RestoreResult) (val : Value) : Dyn
/-- The `reflect.Value` of a node (line 78). -/
inductive Value where
  /-- Kind `Ptr`, nil: `Elem()` is the zero Value, of kind `Invalid`. -/
  | nilPtr : Value
  /-- Kind `Ptr`, not nil: `Elem()` is `elem`. -/
  | ptrTo (elem : Value) : Value
  /-- Kind `Struct`, with its fields in declaration order. -/
  | struct (fields : List Field) : Value
  /-- Any other kind. -/
  | other : Value
/-- One struct field: `typ.Field(i).Name`, `val.Field(i).CanInterface()` (true exactly for
exported fields), and `val.Field(i)`. -/
inductive Field where
  | mk (name : String) (canInterface : Bool) (val : FieldValue) : Field
/-- The `reflect.Value` of a struct field or of a slice element, by kind. Where the code
applies `.Interface().(ast.Node)` to it, `asNode` is the outcome of that type assertion:
`some d` when the dynamic type implements `ast.Node` (the asserted interface is then not nil),
`none` when it does not. -/
inductive FieldValue where
  /-- Kind `Ptr`, `IsNil()` true. -/
  | nilPtr : FieldValue
  /-- Kind `Ptr`, `IsNil()` false. -/
  | ptr (asNode : Option Dyn) : FieldValue
  /-- Kind `Slice` with its elements in index order (a nil slice has none). -/
  | slice (elems : List FieldValue) : FieldValue
  /-- Kind `Interface`, `IsNil()` true: the nil interface. -/
  | nilIface : FieldValue
  /-- Kind `Interface`, `IsNil()` false: an interface holding some dynamic value, which may
  itself be a nil pointer. -/
  | iface (asNode : Option Dyn) : FieldValue
  /-- Any other kind: bool, number, string, struct, array, map, chan, func. -/
  | other : FieldValue
end

/-- An `ast.Node` interface value. -/
inductive Node where
  | nil : Node
  | dyn (d : Dyn) : Node

/-- The dynamic type of a node value. -/
def Dyn.ty : Dyn → NodeType
  | .mk ty _ _ => ty

/-- The outcome of `Restore` on a node value. -/
def Dyn.restore : Dyn → RestoreResult
  | .mk _ r _ => r

/-- The reflected value of a node value. -/
def Dyn.val : Dyn → Value
  | .mk _ _ v => v

/-- Name of a field. -/
def Field.name : Field → String
  | .mk n _ _ => n

/-- Whether the field is exported. -/
def Field.canInterface : Field → Bool
  | .mk _ c _ => c

/-- Reflected value of a field. -/
def Field.val : Field → FieldValue
  | .mk _ _ v => v

/-! ## The normaliser -/

/-- Lines 38-43: `text` stays the empty string unless `Restore` returns a nil error. -/
def restoreText : RestoreResult → String
  | .ok text => text
  | .err => ""

/-- The type switch of lines 53-62 applied to the fresh empty map: the first matching case
is executed, and no other. -/
def categoryData (ty : NodeType) : DataMap :=
  if ty.isStmt then DataMap.set [] "statement_type" (.str "statement")
  else if ty.isExpr then DataMap.set [] "expression_type" (.str "expression")
  else if ty.isDDL then DataMap.set [] "ddl_type" (.str "ddl")
  else if ty.isDML then DataMap.set [] "dml_type" (.str "dml")
  else []

/-- Lines 78-85: dereference one pointer level, then require kind `Struct`; the result is the
field list the loop of line 89 runs over, or `none` when the function returns early. -/
def structFields : Value → Option (List Field)
  | .ptrTo (.struct fields) => some fields
  | .struct fields => some fields
  | _ => none

mutual
/-- The body of `convertToSimpleAST` for `node != nil` (lines 36-67). The recursive calls of
lines 101, 113 and 125 pass the result of a successful type assertion, which is a non-nil
interface, so they enter this body directly. -/
def convertDyn : Dyn → Option ASTNode
  | .mk ty restore val =>
    match extractValue val with
    | none => none
    | some children => some (.mk ty.name (restoreText restore) children (some (categoryData ty)))
/-- Lines 78-132 of `extractChildNodes`, on the reflected value of a non-nil node. -/
def extractValue : Value → Option (Slice ASTNode)
  | .ptrTo (.struct fields) => fieldsLoop fields .nil
  | .struct fields => fieldsLoop fields .nil
  | _ => some .nil
/-- The loop of lines 89-130 over the remaining fields, `children` being the slice built so
far. -/
def fieldsLoop : List Field → Slice ASTNode → Option (Slice ASTNode)
  | [], children => some children
  | f :: rest, children =>
    match fieldStep f children with
    | none => none
    | some children' => fieldsLoop rest children'
/-- One iteration of the loop of lines 89-130. An unexported field is skipped (line 94).
Otherwise at most one of the three guards holds: kind `Ptr`, not nil, and a node (lines
99-105); kind `Slice` (lines 108-120); kind `Interface`, not nil, and a node (lines 123-129).
When none holds, nothing is appended. -/
def fieldStep : Field → Slice ASTNode → Option (Slice ASTNode)
  | .mk _ false _, children => some children
  | .mk name true (.ptr (some d)), children =>
    match convertDyn d with
    | none => none
    | some child =>
      match child.setData "field_name" (.str name) with
      | none => none
      | some child1 => some (children.append child1)
  | .mk name true (.slice elems), children => sliceLoop name 0 elems children
  | .mk name true (.iface (some d)), children =>
    match convertDyn d with
    | none => none
    | some child =>
      match child.setData "field_name" (.str name) with
      | none => none
      | some child1 => some (children.append child1)
  | .mk _ true _, children => some children
/-- The loop of lines 109-119 over the remaining elements of a slice field, `j` being the
index of the first of them. An element yields a child only when it has kind `Ptr`, is not
nil (line 111) and is a node (line 112); `j` advances in either case. -/
def sliceLoop (name : String) : Nat → List FieldValue → Slice ASTNode → Option (Slice ASTNode)
  | _, [], children => some children
  | j, .ptr (some d) :: rest, children =>
    match convertDyn d with
    | none => none
    | some child =>
      match child.setData "field_name" (.str name) with
      | none => none
      | some child1 =>
        match child1.setData "array_index" (.int j) with
        | none => none
        | some child2 => sliceLoop name (j + 1) rest (children.append child2)
  | j, _ :: rest, children => sliceLoop name (j + 1) rest children
end

/-- Function `convertToSimpleAST` (lines 31-68). -/
def convertToSimpleAST : Node → Option ASTNode
  | .nil => some ASTNode.zero
  | .dyn d => convertDyn d

/-- Function `extractChildNodes` (lines 71-133). -/
def extractChildNodes : Node → Option (Slice ASTNode)
  | .nil => some .nil
  | .dyn d => extractValue d.val

/-! ## The normaliser when `Restore` may panic

`convertDyn` covers the two outcomes in which the call of line 41 returns. The call can also
panic, and `parser.go` has no `recover`: the panic then ends the whole conversion. Whether
`Restore` panics on a node is decided by the parser library, so it is a parameter here,
`panics`. The functions below repeat the normaliser with that third outcome; `none` is now
either of the two failures, a panic in `Restore` or a write to a nil map. -/

mutual
/-- The body of `convertToSimpleAST` for `node != nil` (lines 36-67), the call of line 41
panicking when `panics` says so. -/
def convertDynOrPanic (panics : Dyn → Bool) : Dyn → Option ASTNode
  | .mk ty restore val =>
    if panics (.mk ty restore val) then none
    else
      match extractValueOrPanic panics val with
      | none => none
      | some children =>
        some (.mk ty.name (restoreText restore) children (some (categoryData ty)))
/-- Lines 78-132 of `extractChildNodes`, as `extractValue`. -/
def extractValueOrPanic (panics : Dyn → Bool) : Value → Option (Slice ASTNode)
  | .ptrTo (.struct fields) => fieldsLoopOrPanic panics fields .nil
  | .struct fields => fieldsLoopOrPanic panics fields .nil
  | _ => some .nil
/-- The loop of lines 89-130, as `fieldsLoop`. -/
def fieldsLoopOrPanic (panics : Dyn → Bool) :
    List Field → Slice ASTNode → Option (Slice ASTNode)
  | [], children => some children
  | f :: rest, children =>
    match fieldStepOrPanic panics f children with
    | none => none
    | some children' => fieldsLoopOrPanic panics rest children'
/-- One iteration of the loop of lines 89-130, as `fieldStep`. -/
def fieldStepOrPanic (panics : Dyn → Bool) : Field → Slice ASTNode → Option (Slice ASTNode)
  | .mk _ false _, children => some children
  | .mk name true (.ptr (some d)), children =>
    match convertDynOrPanic panics d with
    | none => none
    | some child =>
      match child.setData "field_name" (.str name) with
      | none => none
      | some child1 => some (children.append child1)
  | .mk name true (.slice elems), children => sliceLoopOrPanic panics name 0 elems children
  | .mk name true (.iface (some d)), children =>
    match convertDynOrPanic panics d with
    | none => none
    | some child =>
      match child.setData "field_name" (.str name) with
      | none => none
      | some child1 => some (children.append child1)
  | .mk _ true _, children => some children
/-- The loop of lines 109-119, as `sliceLoop`. -/
def sliceLoopOrPanic (panics : Dyn → Bool) (name : String) :
    Nat → List FieldValue → Slice ASTNode → Option (Slice ASTNode)
  | _, [], children => some children
  | j, .ptr (some d) :: rest, children =>
    match convertDynOrPanic panics d with
    | none => none
    | some child =>
      match child.setData "field_name" (.str name) with
      | none => none
      | some child1 =>
        match child1.setData "array_index" (.int j) with
        | none => none
        | some child2 => sliceLoopOrPanic panics name (j + 1) rest (children.append child2)
  | j, _ :: rest, children => sliceLoopOrPanic panics name (j + 1) rest children
end

/-- Function `convertToSimpleAST` (lines 31-68) when `Restore` may panic. On the nil
interface it returns at line 33, before any call of `Restore`. -/
def convertToSimpleASTOrPanic (panics : Dyn → Bool) : Node → Option ASTNode
  | .nil => some ASTNode.zero
  | .dyn d => convertDynOrPanic panics d

/-! ## The envelope builder -/

/-- What `p.Parse(sqlStr, "", "")` returns (line 140), the warnings being dropped: the
statement slice and the error, `none` for a nil error and `some msg` for an error whose
`Error()` text is `msg`. The parser itself is external, so `parse_sql` takes it as a
parameter. -/
structure ParseOutput where
  stmts : List Node
  err : Option String

/-- The loop of lines 151-153 over the remaining statements, `astNodes` being the slice built
so far. -/
def stmtsLoop : List Node → Slice ASTNode → Option (Slice ASTNode)
  | [], astNodes => some astNodes
  | stmt :: rest, astNodes =>
    match convertToSimpleAST stmt with
    | none => none
    | some view => stmtsLoop rest (astNodes.append view)

/-- Function `parse_sql` up to the `Result` value it builds (lines 137-159); lines 161-162
encode that value. In the error branch `AST` is left at its zero value, the nil interface;
in the success branch `Error` is left at its zero value, the empty string, and `AST` holds
the slice `astNodes`, declared at line 150 as the nil slice. -/
def parse_sql (parse : String → ParseOutput) (sqlStr : String) : Option Result :=
  match (parse sqlStr).err with
  | some msg => some { Success := false, Error := msg, AST := none }
  | none =>
    match stmtsLoop (parse sqlStr).stmts .nil with
    | none => none
    | some astNodes => some { Success := true, Error := "", AST := some astNodes }

/-! ## Derived notions used to state properties -/

/-- The fields visited by the loop of line 89; there are none when `extractChildNodes`
returns before the loop. -/
def Value.fields (v : Value) : List Field :=
  match structFields v with
  | some fields => fields
  | none => []

/-- Whether a field has kind `Slice`. -/
def FieldValue.isSlice : FieldValue → Bool
  | .slice _ => true
  | _ => false

/-- Whether a slice element passes the guard of line 111 and the type assertion of line 112:
a non-nil pointer whose type implements `ast.Node`. -/
def FieldValue.isNodePtr : FieldValue → Bool
  | .ptr (some _) => true
  | _ => false

/-- The children one loop iteration appends for field `f`: what `fieldStep` leaves in an
initially nil slice. -/
def fieldChildren (f : Field) : List ASTNode :=
  match fieldStep f .nil with
  | some s => s.toList
  | none => []

/-- The children one inner-loop iteration appends for the element `e` at index `j` of the
slice field `name`: what `sliceLoop` on that single element leaves in an initially nil
slice. -/
def elemChildren (name : String) (j : Nat) (e : FieldValue) : List ASTNode :=
  match sliceLoop name j [e] .nil with
  | some s => s.toList
  | none => []

/-- The `array_index` entries of a list of children, in order. -/
def arrayIndices (cs : List ASTNode) : List (Option DataVal) :=
  cs.map (fun c => c.dataGet "array_index")

/-- The child the inner loop builds at lines 113-115 for index `j` of the slice `es` of field
`name`: the element there is a non-nil pointer to a node, and `c` is that node's view with
`field_name` and then `array_index` set. -/
def IsElemChild (name : String) (es : List FieldValue) (j : Nat) (c : ASTNode) : Prop :=
  ∃ d view c1, es[j]? = some (.ptr (some d)) ∧ convertDyn d = some view ∧
    view.setData "field_name" (.str name) = some c1 ∧
    c1.setData "array_index" (.int j) = some c

/-- Whether a field value or slice element is a present reference to a node, in the sense
of the specification: a non-nil pointer to a node, or a non-nil interface holding a node
other than a nil pointer. The kind of the reference plays no part. -/
def FieldValue.isPresentNodeRef : FieldValue → Bool
  | .ptr (some _) => true
  | .iface (some (.mk _ _ .nilPtr)) => false
  | .iface (some _) => true
  | _ => false

/-- The number of present node references a field holds, in the sense of the specification:
none for an unexported field, the number of present elements for a collection, and one or
none for a single or polymorphic reference. -/
def specPresentRefs : Field → Nat
  | .mk _ false _ => 0
  | .mk _ true (.slice elems) => (elems.filter FieldValue.isPresentNodeRef).length
  | .mk _ true val => if val.isPresentNodeRef then 1 else 0

/-! ## Measures on trees -/

mutual
/-- Depth of a view: the number of parent-to-child steps on the longest chain of nested
children; a view without children has depth 0. -/
def ASTNode.depth : ASTNode → Nat
  | .mk _ _ children _ => sliceDepth children
/-- One more than the greatest depth among the elements of a slice of views; 0 when there is
no element. -/
def sliceDepth : Slice ASTNode → Nat
  | .nil => 0
  | .mk elems => childrenDepth elems
/-- One more than the greatest depth among the listed views; 0 for the empty list. -/
def childrenDepth : List ASTNode → Nat
  | [] => 0
  | c :: rest => max (c.depth + 1) (childrenDepth rest)
end

mutual
/-- Nesting depth of a parse tree: the number of steps on the longest chain of node
references, through fields of any kind, exported or not; a node that references no node has
depth 0. -/
def Dyn.depth : Dyn → Nat
  | .mk _ _ val => val.depth
/-- One more than the greatest nesting depth among the nodes referenced from a reflected
value; 0 when it references none. -/
def Value.depth : Value → Nat
  | .nilPtr => 0
  | .ptrTo elem => elem.depth
  | .struct fields => fieldsDepth fields
  | .other => 0
/-- The greatest of the field depths. -/
def fieldsDepth : List Field → Nat
  | [] => 0
  | f :: rest => max f.depth (fieldsDepth rest)
/-- One more than the greatest nesting depth among the nodes a field references. -/
def Field.depth : Field → Nat
  | .mk _ _ val => val.depth
/-- One more than the greatest nesting depth among the nodes a field value references. -/
def FieldValue.depth : FieldValue → Nat
  | .ptr (some d) => d.depth + 1
  | .iface (some d) => d.depth + 1
  | .slice elems => elemsDepth elems
  | _ => 0
/-- The greatest of the element depths. -/
def elemsDepth : List FieldValue → Nat
  | [] => 0
  | e :: rest => max e.depth (elemsDepth rest)
end

/-- Nesting depth of an `ast.Node` interface value; the nil interface has depth 0. -/
def Node.depth : Node → Nat
  | .nil => 0
  | .dyn d => d.depth

mutual
/-- All views strictly below a view: its children, their children, and so on. -/
def ASTNode.descendants : ASTNode → List ASTNode
  | .mk _ _ children _ => sliceDescendants children
/-- The elements of a slice of views together with everything below them. -/
def sliceDescendants : Slice ASTNode → List ASTNode
  | .nil => []
  | .mk elems => listDescendants elems
/-- The listed views together with everything below them. -/
def listDescendants : List ASTNode → List ASTNode
  | [] => []
  | c :: rest => c :: (c.descendants ++ listDescendants rest)
end

/-- The nodes whose views the loop of `extractChildNodes` appends for `d`: `c` is referenced
from an exported struct field of `d` through a non-nil pointer, a non-nil interface, or a
non-nil pointer element of a slice, and is a node. -/
def IsChildRef (d c : Dyn) : Prop :=
  ∃ f ∈ d.val.fields, f.canInterface = true ∧
    (f.val = .ptr (some c) ∨ f.val = .iface (some c) ∨
      ∃ es, f.val = .slice es ∧ FieldValue.ptr (some c) ∈ es)

/-- The nodes on which the walk started at `d` calls `Restore`: `d` itself, the nodes whose
views it appends, and so on downwards. -/
def Reaches (d c : Dyn) : Prop := Relation.ReflTransGen IsChildRef d c

/-! ## Sample parse trees

Small trees in the shape the parser builds, with the struct fields cut down to a few of each
kind. -/

/-- A literal, `*test_driver.ValueExpr`: an expression without node-valued fields. -/
def valueExpr (text : String) : Dyn :=
  .mk ⟨"*test_driver.ValueExpr", false, true, false, false⟩ (.ok text)
    (.ptrTo (.struct [.mk "TexprNode" true .other, .mk "Datum" true .other,
      .mk "projectionOffset" false .other]))

/-- A select-list item, `*ast.SelectField`, whose `Expr ExprNode` field holds `expr`. -/
def selectField (text : String) (expr : Dyn) : Dyn :=
  .mk ⟨"*ast.SelectField", false, false, false, false⟩ (.ok text)
    (.ptrTo (.struct [.mk "node" false .other, .mk "Offset" true .other,
      .mk "WildCard" true .nilPtr, .mk "Expr" true (.iface (some expr)),
      .mk "AsName" true .other]))

/-- A select list, `*ast.FieldList`, whose `Fields []*SelectField` holds `elems`. -/
def fieldList (text : String) (elems : List FieldValue) : Dyn :=
  .mk ⟨"*ast.FieldList", false, false, false, false⟩ (.ok text)
    (.ptrTo (.struct [.mk "node" false .other, .mk "Fields" true (.slice elems)]))

/-- A statement `SELECT <lit>`, `*ast.SelectStmt`: statement and DML node. `Where` is the
field value given; `From` is a nil pointer. -/
def selectStmt (lit : String) (whereField : FieldValue) : Dyn :=
  .mk ⟨"*ast.SelectStmt", true, false, false, true⟩ (.ok ("SELECT " ++ lit))
    (.ptrTo (.struct [.mk "dmlNode" false .other, .mk "Distinct" true .other,
      .mk "From" true .nilPtr, .mk "Where" true whereField,
      .mk "Fields" true (.ptr (some (fieldList lit
        [.ptr (some (selectField lit (valueExpr lit)))])))]))

/-- A statement `CREATE TABLE t (a INT)`, `*ast.CreateTableStmt`: both a statement and a
data-definition node. -/
def createTableStmt : Dyn :=
  .mk ⟨"*ast.CreateTableStmt", true, false, true, false⟩ (.ok "CREATE TABLE t (a INT)")
    (.ptrTo (.struct [.mk "ddlNode" false .other, .mk "IfNotExists" true .other,
      .mk "Table" true (.ptr (some (.mk ⟨"*ast.TableName", false, false, false, false⟩
        (.ok "t") (.ptrTo (.struct [.mk "node" false .other, .mk "Name" true .other]))))),
      .mk "Cols" true (.slice [.ptr (some (.mk ⟨"*ast.ColumnDef", false, false, false, false⟩
        (.ok "a INT") (.ptrTo (.struct [.mk "node" false .other, .mk "Tp" true (.ptr none)]))))])]))

/-- A call `f(1, 2)`, `*ast.FuncCallExpr`: its arguments sit in `Args []ExprNode`, a slice
whose elements have kind `Interface`. -/
def funcCallExpr : Dyn :=
  .mk ⟨"*ast.FuncCallExpr", false, true, false, false⟩ (.ok "f(1, 2)")
    (.ptrTo (.struct [.mk "funcNode" false .other, .mk "FnName" true .other,
      .mk "Args" true (.slice [.iface (some (valueExpr "1")), .iface (some (valueExpr "2"))])]))

/-- A `Fields []*SelectField` slice whose first element is a nil pointer and whose second is
present. -/
def fieldsWithNilFirst : List FieldValue :=
  [.nilPtr, .ptr (some (selectField "1" (valueExpr "1")))]

/-- A `Fields []*SelectField` slice with two present elements. -/
def fieldsAllPresent : List FieldValue :=
  [.ptr (some (selectField "1" (valueExpr "1"))), .ptr (some (selectField "2" (valueExpr "2")))]

/-- A nil `*ast.MaxValueExpr` stored in an interface: the interface is not nil, the pointer
in it is. `(*MaxValueExpr).Restore` writes the keyword `MAXVALUE` and returns nil without
reading its receiver, so on the nil pointer it returns as on any other. -/
def nilMaxValueExpr : Dyn :=
  .mk ⟨"*ast.MaxValueExpr", false, true, false, false⟩ (.ok "MAXVALUE") .nilPtr

/-- The node `&ast.ParenthesesExpr{Expr: (*ast.MaxValueExpr)(nil)}`: its exported field
`Expr ExprNode` holds the nil pointer above. Its `Restore` writes `(`, the rendering of
`Expr` and `)`. -/
def parenWithNilPtrExpr : Dyn :=
  .mk ⟨"*ast.ParenthesesExpr", false, true, false, false⟩ (.ok "(MAXVALUE)")
    (.ptrTo (.struct [.mk "exprNode" false .other,
      .mk "Expr" true (.iface (some nilMaxValueExpr))]))

/-- Whether a slice element is a nil pointer. -/
def FieldValue.isNilPtr : FieldValue → Bool
  | .nilPtr => true
  | _ => false

/-- A stand-in for where the library's `Restore` panics, for the trees used here: a node
such as `*ast.FieldList` renders every element of its slice field by calling `Restore` on
it, and so dereferences a nil pointer when one of the elements is a nil pointer. -/
def panicsOnNilElement (d : Dyn) : Bool :=
  d.val.fields.any (fun f =>
    match f.val with
    | .slice elems => elems.any FieldValue.isNilPtr
    | _ => false)

/-- An expression type `Ident` of a package named `ast`; `%T` prints `*ast.Ident`. -/
def identExprType : NodeType := ⟨"*ast.Ident", false, true, false, false⟩

/-- A statement type `Ident` of another package that is also named `ast`; `%T` prints the
package name, not the import path, so it prints `*ast.Ident` as well. -/
def identStmtType : NodeType := ⟨"*ast.Ident", true, false, false, false⟩

/-- A stand-in for the parser on four inputs: two statements, one statement, the empty
text (no statement, no error), and a syntax error for anything else. -/
def sampleParse (sql : String) : ParseOutput :=
  if sql = "SELECT 1; SELECT 2" then
    { stmts := [.dyn (selectStmt "1" .nilIface), .dyn (selectStmt "2" .nilIface)], err := none }
  else if sql = "SELECT 1" then
    { stmts := [.dyn (selectStmt "1" .nilIface)], err := none }
  else if sql = "" then
    { stmts := [], err := none }
  else
    { stmts := [], err := some "line 1 column 6 near SELEKT 1" }

/-! # Theorems -/

/-! ## Slices and maps -/

theorem Slice.toList_append {α : Type} (s : Slice α) (x : α) :
    (s.append x).toList = s.toList ++ [x] := rfl

theorem DataMap.get_set (m : DataMap) (k k' : String) (v : DataVal) :
    DataMap.get (DataMap.set m k v) k' = if k = k' then some v else DataMap.get m k' := by
  induction m with
  | nil => simp [DataMap.set, DataMap.get]
  | cons p rest ih =>
    obtain ⟨k0, v0⟩ := p
    by_cases h0 : k0 = k
    · subst h0
      by_cases h1 : k0 = k' <;> simp [DataMap.set, DataMap.get, h1]
    · by_cases h1 : k0 = k'
      · subst h1
        have h2 : ¬ k = k0 := fun h => h0 h.symm
        simp [DataMap.set, DataMap.get, h0, h2]
      · simp [DataMap.set, DataMap.get, h0, h1, ih]

theorem categoryData_get_field_name (ty : NodeType) :
    DataMap.get (categoryData ty) "field_name" = none := by
  unfold categoryData
  split_ifs <;> simp [DataMap.set, DataMap.get]

theorem categoryData_get_array_index (ty : NodeType) :
    DataMap.get (categoryData ty) "array_index" = none := by
  unfold categoryData
  split_ifs <;> simp [DataMap.set, DataMap.get]

theorem ASTNode.dataGet_setData (n n' : ASTNode) (k k' : String) (v : DataVal)
    (h : n.setData k v = some n') :
    n'.dataGet k' = if k = k' then some v else n.dataGet k' := by
  obtain ⟨t, x, c, d⟩ := n
  cases d with
  | none => simp [ASTNode.setData] at h
  | some m =>
    simp only [ASTNode.setData, Option.some.injEq] at h
    subst h
    simp [ASTNode.dataGet, ASTNode.Data, DataMap.get_set]

/-! ## The normaliser always returns -/

mutual
theorem convertDyn_total : ∀ d : Dyn, ∃ s, extractValue d.val = some s ∧
    convertDyn d = some (.mk d.ty.name (restoreText d.restore) s (some (categoryData d.ty)))
  | .mk ty r val => by
    obtain ⟨s, hs⟩ := extractValue_total val
    exact ⟨s, hs, by simp [convertDyn, hs, Dyn.ty, Dyn.restore]⟩
theorem extractValue_total : ∀ v : Value, ∃ s, extractValue v = some s
  | .nilPtr => ⟨.nil, by simp [extractValue]⟩
  | .other => ⟨.nil, by simp [extractValue]⟩
  | .ptrTo .nilPtr => ⟨.nil, by simp [extractValue]⟩
  | .ptrTo .other => ⟨.nil, by simp [extractValue]⟩
  | .ptrTo (.ptrTo _) => ⟨.nil, by simp [extractValue]⟩
  | .ptrTo (.struct fs) => by
    obtain ⟨s, hs⟩ := fieldsLoop_total fs .nil
    exact ⟨s, by simp [extractValue, hs]⟩
  | .struct fs => by
    obtain ⟨s, hs⟩ := fieldsLoop_total fs .nil
    exact ⟨s, by simp [extractValue, hs]⟩
theorem fieldsLoop_total : ∀ (fs : List Field) (acc : Slice ASTNode),
    ∃ s, fieldsLoop fs acc = some s
  | [], acc => ⟨acc, by simp [fieldsLoop]⟩
  | f :: rest, acc => by
    obtain ⟨s1, h1⟩ := fieldStep_total f acc
    obtain ⟨s2, h2⟩ := fieldsLoop_total rest s1
    exact ⟨s2, by simp [fieldsLoop, h1, h2]⟩
theorem fieldStep_total : ∀ (f : Field) (acc : Slice ASTNode), ∃ s, fieldStep f acc = some s
  | .mk _ false _, acc => ⟨acc, by simp [fieldStep]⟩
  | .mk name true (.ptr (some d)), acc => by
    obtain ⟨s, _, hs⟩ := convertDyn_total d
    exact ⟨_, by simp [fieldStep, hs, ASTNode.setData]; rfl⟩
  | .mk name true (.iface (some d)), acc => by
    obtain ⟨s, _, hs⟩ := convertDyn_total d
    exact ⟨_, by simp [fieldStep, hs, ASTNode.setData]; rfl⟩
  | .mk name true (.slice es), acc => by
    obtain ⟨s, hs⟩ := sliceLoop_total name 0 es acc
    exact ⟨s, by simp [fieldStep, hs]⟩
  | .mk _ true .nilPtr, acc => ⟨acc, by simp [fieldStep]⟩
  | .mk _ true (.ptr none), acc => ⟨acc, by simp [fieldStep]⟩
  | .mk _ true .nilIface, acc => ⟨acc, by simp [fieldStep]⟩
  | .mk _ true (.iface none), acc => ⟨acc, by simp [fieldStep]⟩
  | .mk _ true .other, acc => ⟨acc, by simp [fieldStep]⟩
theorem sliceLoop_total (name : String) :
    ∀ (j : Nat) (es : List FieldValue) (acc : Slice ASTNode),
      ∃ s, sliceLoop name j es acc = some s
  | _, [], acc => ⟨acc, by simp [sliceLoop]⟩
  | j, .ptr (some d) :: rest, acc => by
    obtain ⟨s, _, hs⟩ := convertDyn_total d
    obtain ⟨s2, h2⟩ := sliceLoop_total name (j + 1) rest
      (acc.append (.mk d.ty.name (restoreText d.restore) s
        (some (((categoryData d.ty).set "field_name" (.str name)).set "array_index" (.int j)))))
    exact ⟨s2, by simp [sliceLoop, hs, ASTNode.setData, h2]⟩
  | j, .nilPtr :: rest, acc => by
    obtain ⟨s2, h2⟩ := sliceLoop_total name (j + 1) rest acc
    exact ⟨s2, by simp [sliceLoop, h2]⟩
  | j, .ptr none :: rest, acc => by
    obtain ⟨s2, h2⟩ := sliceLoop_total name (j + 1) rest acc
    exact ⟨s2, by simp [sliceLoop, h2]⟩
  | j, .slice _ :: rest, acc => by
    obtain ⟨s2, h2⟩ := sliceLoop_total name (j + 1) rest acc
    exact ⟨s2, by simp [sliceLoop, h2]⟩
  | j, .nilIface :: rest, acc => by
    obtain ⟨s2, h2⟩ := sliceLoop_total name (j + 1) rest acc
    exact ⟨s2, by simp [sliceLoop, h2]⟩
  | j, .iface _ :: rest, acc => by
    obtain ⟨s2, h2⟩ := sliceLoop_total name (j + 1) rest acc
    exact ⟨s2, by simp [sliceLoop, h2]⟩
  | j, .other :: rest, acc => by
    obtain ⟨s2, h2⟩ := sliceLoop_total name (j + 1) rest acc
    exact ⟨s2, by simp [sliceLoop, h2]⟩
end

theorem extractValue_fields (v : Value) : extractValue v = fieldsLoop v.fields .nil := by
  cases v with
  | nilPtr => simp [extractValue, Value.fields, structFields, fieldsLoop]
  | other => simp [extractValue, Value.fields, structFields, fieldsLoop]
  | struct fs => simp [extractValue, Value.fields, structFields]
  | ptrTo e =>
    cases e <;> simp [extractValue, Value.fields, structFields, fieldsLoop]

/-! ## Single iterations -/

/-- The child built for a single reference (lines 101-102 and 125-126): the view of the
referenced node with `field_name` set. It does not depend on the slice built so far. -/
theorem singleChild_spec (name : String) (d : Dyn) :
    ∃ view c, convertDyn d = some view ∧ view.setData "field_name" (.str name) = some c ∧
      (∀ acc, fieldStep (.mk name true (.ptr (some d))) acc = some (acc.append c)) ∧
      (∀ acc, fieldStep (.mk name true (.iface (some d))) acc = some (acc.append c)) := by
  obtain ⟨s, _, hs⟩ := convertDyn_total d
  refine ⟨_, _, hs, rfl, ?_, ?_⟩ <;> intro acc <;> simp [fieldStep, hs, ASTNode.setData]

/-- The child built for a slice element that is a non-nil pointer to a node (lines 113-115):
the view of the element with `field_name` and `array_index` set. -/
theorem elemChild_spec (name : String) (j : Nat) (d : Dyn) :
    ∃ view c1 c, convertDyn d = some view ∧ view.setData "field_name" (.str name) = some c1 ∧
      c1.setData "array_index" (.int j) = some c ∧
      ∀ rest acc, sliceLoop name j (.ptr (some d) :: rest) acc
        = sliceLoop name (j + 1) rest (acc.append c) := by
  obtain ⟨s, _, hs⟩ := convertDyn_total d
  refine ⟨_, _, _, hs, rfl, rfl, ?_⟩
  intro rest acc
  simp [sliceLoop, hs, ASTNode.setData]

/-- Every other slice element is passed over (the guard of line 111 or the type assertion of
line 112 fails). -/
theorem sliceLoop_skip (name : String) (j : Nat) (e : FieldValue) (rest : List FieldValue)
    (acc : Slice ASTNode) (h : e.isNodePtr = false) :
    sliceLoop name j (e :: rest) acc = sliceLoop name (j + 1) rest acc := by
  cases e with
  | ptr a =>
    cases a with
    | none => simp [sliceLoop]
    | some d => simp [FieldValue.isNodePtr] at h
  | _ => simp [sliceLoop]

theorem elemChildren_skip (name : String) (j : Nat) (e : FieldValue)
    (h : e.isNodePtr = false) : elemChildren name j e = [] := by
  unfold elemChildren
  rw [sliceLoop_skip name j e [] .nil h]
  simp [sliceLoop, Slice.toList]

theorem elemChildren_ptr (name : String) (j : Nat) (d : Dyn) :
    ∃ view c1 c, convertDyn d = some view ∧ view.setData "field_name" (.str name) = some c1 ∧
      c1.setData "array_index" (.int j) = some c ∧
      elemChildren name j (.ptr (some d)) = [c] ∧
      ∀ rest acc, sliceLoop name j (.ptr (some d) :: rest) acc
        = sliceLoop name (j + 1) rest (acc.append c) := by
  obtain ⟨view, c1, c, hv, h1, h2, hstep⟩ := elemChild_spec name j d
  refine ⟨view, c1, c, hv, h1, h2, ?_, hstep⟩
  unfold elemChildren
  rw [hstep]
  simp [sliceLoop, Slice.append, Slice.toList]

/-! ## The loops append, in order -/

theorem sliceLoop_toList (name : String) (es : List FieldValue) :
    ∀ (j : Nat) (acc : Slice ASTNode), ∃ out, sliceLoop name j es acc = some out ∧
      out.toList = acc.toList ++ (es.enumFrom j).flatMap (fun p => elemChildren name p.1 p.2) := by
  induction es with
  | nil => intro j acc; exact ⟨acc, by simp [sliceLoop]⟩
  | cons e rest ih =>
    intro j acc
    by_cases hp : e.isNodePtr = true
    · cases e with
      | ptr a =>
        cases a with
        | none => simp [FieldValue.isNodePtr] at hp
        | some d =>
          obtain ⟨_, _, c, _, _, _, hc, hstep⟩ := elemChildren_ptr name j d
          obtain ⟨out, ho, hl⟩ := ih (j + 1) (acc.append c)
          refine ⟨out, by rw [hstep, ho], ?_⟩
          rw [hl]
          simp [List.enumFrom, hc, Slice.toList_append]
      | _ => simp [FieldValue.isNodePtr] at hp
    · have hp' : e.isNodePtr = false := by simpa using hp
      obtain ⟨out, ho, hl⟩ := ih (j + 1) acc
      refine ⟨out, by rw [sliceLoop_skip name j e rest acc hp', ho], ?_⟩
      rw [hl]
      simp [List.enumFrom, elemChildren_skip name j e hp']

theorem fieldChildren_unexported (name : String) (v : FieldValue) :
    fieldChildren (.mk name false v) = [] := by
  simp [fieldChildren, fieldStep, Slice.toList]

theorem fieldChildren_slice (name : String) (es : List FieldValue) :
    fieldChildren (.mk name true (.slice es))
      = es.enum.flatMap (fun p => elemChildren name p.1 p.2) := by
  obtain ⟨out, ho, hl⟩ := sliceLoop_toList name es 0 .nil
  unfold fieldChildren
  simp only [fieldStep, ho, hl, List.enum]
  simp [Slice.toList]

theorem fieldStep_toList (f : Field) (acc : Slice ASTNode) :
    ∃ out, fieldStep f acc = some out ∧ out.toList = acc.toList ++ fieldChildren f := by
  obtain ⟨name, exported, v⟩ := f
  cases exported with
  | false => exact ⟨acc, by simp [fieldStep], by simp [fieldChildren_unexported]⟩
  | true =>
    cases v with
    | ptr a =>
      cases a with
      | none => exact ⟨acc, by simp [fieldStep], by simp [fieldChildren, fieldStep, Slice.toList]⟩
      | some d =>
        obtain ⟨_, c, _, _, hp, _⟩ := singleChild_spec name d
        refine ⟨acc.append c, hp acc, ?_⟩
        simp only [fieldChildren, hp, Slice.toList_append]
        rfl
    | iface a =>
      cases a with
      | none => exact ⟨acc, by simp [fieldStep], by simp [fieldChildren, fieldStep, Slice.toList]⟩
      | some d =>
        obtain ⟨_, c, _, _, _, hi⟩ := singleChild_spec name d
        refine ⟨acc.append c, hi acc, ?_⟩
        simp only [fieldChildren, hi, Slice.toList_append]
        rfl
    | slice es =>
      obtain ⟨out, ho, hl⟩ := sliceLoop_toList name es 0 acc
      refine ⟨out, by simp [fieldStep, ho], ?_⟩
      rw [hl, fieldChildren_slice]
      rfl
    | nilPtr => exact ⟨acc, by simp [fieldStep], by simp [fieldChildren, fieldStep, Slice.toList]⟩
    | nilIface =>
      exact ⟨acc, by simp [fieldStep], by simp [fieldChildren, fieldStep, Slice.toList]⟩
    | other => exact ⟨acc, by simp [fieldStep], by simp [fieldChildren, fieldStep, Slice.toList]⟩

theorem fieldsLoop_toList (fs : List Field) :
    ∀ acc : Slice ASTNode, ∃ out, fieldsLoop fs acc = some out ∧
      out.toList = acc.toList ++ fs.flatMap fieldChildren := by
  induction fs with
  | nil => intro acc; exact ⟨acc, by simp [fieldsLoop]⟩
  | cons f rest ih =>
    intro acc
    obtain ⟨mid, hm, hml⟩ := fieldStep_toList f acc
    obtain ⟨out, ho, hol⟩ := ih mid
    refine ⟨out, by simp [fieldsLoop, hm, ho], ?_⟩
    rw [hol, hml]
    simp

theorem flatMap_filter_exported (fs : List Field) :
    (fs.filter Field.canInterface).flatMap fieldChildren = fs.flatMap fieldChildren := by
  induction fs with
  | nil => rfl
  | cons f rest ih =>
    obtain ⟨name, exported, v⟩ := f
    cases exported with
    | false => simp [List.filter, Field.canInterface, fieldChildren_unexported, ih]
    | true => simp [List.filter, Field.canInterface, ih]

theorem convertDyn_children (d : Dyn) :
    ∃ s, convertDyn d = some (.mk d.ty.name (restoreText d.restore) s (some (categoryData d.ty)))
      ∧ s.toList = d.val.fields.flatMap fieldChildren := by
  obtain ⟨s, hs, hv⟩ := convertDyn_total d
  refine ⟨s, hv, ?_⟩
  obtain ⟨out, ho, hl⟩ := fieldsLoop_toList d.val.fields .nil
  rw [extractValue_fields, ho] at hs
  cases hs
  simpa [Slice.toList] using hl

theorem elemChildren_mem (name : String) (j : Nat) (e : FieldValue) (c : ASTNode)
    (h : c ∈ elemChildren name j e) :
    ∃ d view c1, e = .ptr (some d) ∧ convertDyn d = some view ∧
      view.setData "field_name" (.str name) = some c1 ∧
      c1.setData "array_index" (.int j) = some c := by
  by_cases hp : e.isNodePtr = true
  · cases e with
    | ptr a =>
      cases a with
      | none => simp [FieldValue.isNodePtr] at hp
      | some d =>
        obtain ⟨view, c1, c', hv, h1, h2, hc, _⟩ := elemChildren_ptr name j d
        rw [hc] at h
        simp only [List.mem_singleton] at h
        subst h
        exact ⟨d, view, c1, rfl, hv, h1, h2⟩
    | _ => simp [FieldValue.isNodePtr] at hp
  · have hp' : e.isNodePtr = false := by simpa using hp
    rw [elemChildren_skip name j e hp'] at h
    simp at h

theorem convertDyn_dataGet (d : Dyn) (view : ASTNode) (h : convertDyn d = some view)
    (k : String) : view.dataGet k = DataMap.get (categoryData d.ty) k := by
  obtain ⟨s, _, hv⟩ := convertDyn_total d
  rw [hv] at h
  cases h
  rfl

theorem fieldChildren_tags (f : Field) (c : ASTNode) (h : c ∈ fieldChildren f) :
    c.dataGet "field_name" = some (.str f.name) ∧
      (c.dataGet "array_index").isSome = f.val.isSlice := by
  obtain ⟨name, exported, v⟩ := f
  cases exported with
  | false => simp [fieldChildren_unexported] at h
  | true =>
    have single : ∀ d : Dyn, (∀ acc, fieldStep (.mk name true v) acc
        = fieldStep (.mk name true (.ptr (some d))) acc) → v.isSlice = false →
        c.dataGet "field_name" = some (.str name) ∧
          (c.dataGet "array_index").isSome = v.isSlice := by
      intro d hsame hns
      obtain ⟨view, c', hv, h1, hp, _⟩ := singleChild_spec name d
      have hc : c = c' := by
        simpa [fieldChildren, hsame, hp, Slice.append, Slice.toList] using h
      subst hc
      have hf := ASTNode.dataGet_setData view c "field_name" "field_name" _ h1
      have ha := ASTNode.dataGet_setData view c "field_name" "array_index" _ h1
      rw [convertDyn_dataGet d view hv, categoryData_get_array_index] at ha
      simp at hf
      simp at ha
      simp [hf, ha, hns]
    cases v with
    | ptr a =>
      cases a with
      | none => simp [fieldChildren, fieldStep, Slice.toList] at h
      | some d => exact single d (fun _ => rfl) rfl
    | iface a =>
      cases a with
      | none => simp [fieldChildren, fieldStep, Slice.toList] at h
      | some d =>
        refine single d (fun acc => ?_) rfl
        simp [fieldStep]
    | slice es =>
      rw [fieldChildren_slice] at h
      simp only [List.mem_flatMap] at h
      obtain ⟨⟨j, e⟩, _, hc⟩ := h
      obtain ⟨d, view, c1, _, hv, h1, h2⟩ := elemChildren_mem name j e c hc
      have hf1 := ASTNode.dataGet_setData view c1 "field_name" "field_name" _ h1
      have hf := ASTNode.dataGet_setData c1 c "array_index" "field_name" _ h2
      have ha := ASTNode.dataGet_setData c1 c "array_index" "array_index" _ h2
      simp at hf1 hf ha
      simp [hf, hf1, ha, Field.name, Field.val, FieldValue.isSlice]
    | nilPtr => simp [fieldChildren, fieldStep, Slice.toList] at h
    | nilIface => simp [fieldChildren, fieldStep, Slice.toList] at h
    | other => simp [fieldChildren, fieldStep, Slice.toList] at h

/-! ## Positions of slice children -/

theorem elemChildren_positions (name : String) (es : List FieldValue) :
    ∀ j0 : Nat, ∃ js : List Nat,
      List.Forall₂ (fun j c => j0 ≤ j ∧ ∃ d view c1, es[j - j0]? = some (.ptr (some d)) ∧
          convertDyn d = some view ∧ view.setData "field_name" (.str name) = some c1 ∧
          c1.setData "array_index" (.int j) = some c)
        js ((es.enumFrom j0).flatMap (fun p => elemChildren name p.1 p.2)) ∧
      (∀ j ∈ js, j0 ≤ j) ∧ js.Pairwise (· < ·) := by
  induction es with
  | nil => intro j0; exact ⟨[], by simp, by simp, List.Pairwise.nil⟩
  | cons e rest ih =>
    intro j0
    obtain ⟨js, hf, hlow, hpw⟩ := ih (j0 + 1)
    have lift : List.Forall₂ (fun j c => j0 ≤ j ∧ ∃ d view c1,
          (e :: rest)[j - j0]? = some (.ptr (some d)) ∧
          convertDyn d = some view ∧ view.setData "field_name" (.str name) = some c1 ∧
          c1.setData "array_index" (.int j) = some c)
        js ((rest.enumFrom (j0 + 1)).flatMap (fun p => elemChildren name p.1 p.2)) := by
      refine hf.imp ?_
      intro j c ⟨hj, d, view, c1, he, hv, h1, h2⟩
      refine ⟨by omega, d, view, c1, ?_, hv, h1, h2⟩
      have hidx : j - j0 = (j - (j0 + 1)) + 1 := by omega
      rw [hidx, List.getElem?_cons_succ]
      exact he
    by_cases hp : e.isNodePtr = true
    · cases e with
      | ptr a =>
        cases a with
        | none => simp [FieldValue.isNodePtr] at hp
        | some d =>
          obtain ⟨view, c1, c, hv, h1, h2, hc, _⟩ := elemChildren_ptr name j0 d
          refine ⟨j0 :: js, ?_, ?_, ?_⟩
          · simp only [List.enumFrom, List.flatMap_cons, hc, List.singleton_append]
            exact List.Forall₂.cons ⟨le_refl _, d, view, c1, by simp, hv, h1, h2⟩ lift
          · intro j hj
            rcases List.mem_cons.mp hj with h | h
            · omega
            · have := hlow j h
              omega
          · refine List.Pairwise.cons ?_ hpw
            intro j hj
            have := hlow j hj
            omega
      | _ => simp [FieldValue.isNodePtr] at hp
    · have hp' : e.isNodePtr = false := by simpa using hp
      refine ⟨js, ?_, ?_, hpw⟩
      · simp only [List.enumFrom, List.flatMap_cons, elemChildren_skip name j0 e hp',
          List.nil_append]
        exact lift
      · intro j hj
        have := hlow j hj
        omega

theorem isElemChild_index (name : String) (es : List FieldValue) (j : Nat) (c : ASTNode)
    (h : IsElemChild name es j c) : c.dataGet "array_index" = some (.int j) := by
  obtain ⟨d, view, c1, _, _, _, h2⟩ := h
  have ha := ASTNode.dataGet_setData c1 c "array_index" "array_index" _ h2
  simpa using ha

theorem elemChildren_all_present (name : String) (es : List FieldValue)
    (h : ∀ e ∈ es, e.isNodePtr = true) :
    ∀ j0 : Nat,
      arrayIndices ((es.enumFrom j0).flatMap (fun p => elemChildren name p.1 p.2))
        = (List.range' j0 es.length).map (fun j => some (DataVal.int j)) := by
  induction es with
  | nil => intro j0; simp [arrayIndices]
  | cons e rest ih =>
    intro j0
    have hrest := ih (fun e he => h e (List.mem_cons_of_mem _ he)) (j0 + 1)
    have he := h e (List.mem_cons_self _ _)
    cases e with
    | ptr a =>
      cases a with
      | none => simp [FieldValue.isNodePtr] at he
      | some d =>
        obtain ⟨view, c1, c, hv, h1, h2, hc, _⟩ := elemChildren_ptr name j0 d
        have ha := ASTNode.dataGet_setData c1 c "array_index" "array_index" _ h2
        simp only [if_true] at ha
        simp only [arrayIndices] at hrest
        simp [arrayIndices, List.enumFrom, hc, ha, hrest, List.range']
    | _ => simp [FieldValue.isNodePtr] at he

/-! ## The statement loop -/

theorem stmtsLoop_toList (stmts : List Node) :
    ∀ acc : Slice ASTNode, ∃ out views, stmtsLoop stmts acc = some out ∧
      out.toList = acc.toList ++ views ∧
      List.Forall₂ (fun stmt view => convertToSimpleAST stmt = some view) stmts views := by
  induction stmts with
  | nil => intro acc; exact ⟨acc, [], by simp [stmtsLoop], by simp, List.Forall₂.nil⟩
  | cons stmt rest ih =>
    intro acc
    have hview : ∃ view, convertToSimpleAST stmt = some view := by
      cases stmt with
      | nil => exact ⟨_, rfl⟩
      | dyn d =>
        obtain ⟨s, _, hv⟩ := convertDyn_total d
        exact ⟨_, hv⟩
    obtain ⟨view, hv⟩ := hview
    obtain ⟨out, views, ho, hl, hf⟩ := ih (acc.append view)
    refine ⟨out, view :: views, by simp [stmtsLoop, hv, ho], ?_, List.Forall₂.cons hv hf⟩
    rw [hl, Slice.toList_append]
    simp

/-! ## The envelope -/

/-- Claim C1: when the parser returns no error, `parse_sql` builds the envelope with
`Success = true`, an empty `Error`, and an `AST` slice holding one view per statement: as
many views as statements, the view at each position being `convertToSimpleAST` of the
statement at that position. -/
theorem parse_sql_success_envelope (parse : String → ParseOutput) (sqlStr : String)
    (h : (parse sqlStr).err = none) :
    ∃ astNodes : Slice ASTNode,
      parse_sql parse sqlStr = some { Success := true, Error := "", AST := some astNodes } ∧
      astNodes.len = (parse sqlStr).stmts.length ∧
      List.Forall₂ (fun stmt view => convertToSimpleAST stmt = some view)
        (parse sqlStr).stmts astNodes.toList := by
  obtain ⟨out, views, ho, hl, hf⟩ := stmtsLoop_toList (parse sqlStr).stmts .nil
  have hviews : out.toList = views := by simpa [Slice.toList] using hl
  refine ⟨out, by simp [parse_sql, h, ho], ?_, ?_⟩
  · rw [Slice.len, hviews]
    exact hf.length_eq.symm
  · rw [hviews]
    exact hf

/-- Claim C1 on the text `SELECT 1; SELECT 2`, for which the sample parser returns two
statements and no error. -/
theorem parse_sql_success_envelope_witness :
    (sampleParse "SELECT 1; SELECT 2").err = none ∧
    ∃ astNodes : Slice ASTNode,
      parse_sql sampleParse "SELECT 1; SELECT 2"
        = some { Success := true, Error := "", AST := some astNodes } ∧
      astNodes.len = (sampleParse "SELECT 1; SELECT 2").stmts.length ∧
      List.Forall₂ (fun stmt view => convertToSimpleAST stmt = some view)
        (sampleParse "SELECT 1; SELECT 2").stmts astNodes.toList :=
  ⟨by decide, parse_sql_success_envelope sampleParse "SELECT 1; SELECT 2" (by decide)⟩

/-- Claim C2: when the parser returns an error, `parse_sql` builds the envelope with
`Success = false`, `Error` equal to the text of that error, and `AST` left as the nil
interface; the statements the parser may have returned play no part. -/
theorem parse_sql_error_envelope (parse : String → ParseOutput) (sqlStr msg : String)
    (h : (parse sqlStr).err = some msg) :
    parse_sql parse sqlStr = some { Success := false, Error := msg, AST := none } := by
  simp [parse_sql, h]

/-- Claim C2 on the text `SELEKT 1`, which the sample parser rejects. -/
theorem parse_sql_error_envelope_witness :
    (sampleParse "SELEKT 1").err = some "line 1 column 6 near SELEKT 1" ∧
    parse_sql sampleParse "SELEKT 1"
      = some { Success := false, Error := "line 1 column 6 near SELEKT 1", AST := none } :=
  ⟨by decide, parse_sql_error_envelope sampleParse "SELEKT 1" _ (by decide)⟩

/-- Claim C10, evaluated: on the empty text the sample parser returns no statement and no
error, and the envelope built by `parse_sql` holds in `AST` the nil slice, which is not the
empty non-nil slice. -/
theorem parse_sql_empty_input_ast_is_nil_slice :
    (sampleParse "").stmts = [] ∧ (sampleParse "").err = none ∧
    parse_sql sampleParse "" = some { Success := true, Error := "", AST := some Slice.nil } ∧
    (Slice.nil : Slice ASTNode) ≠ Slice.mk [] :=
  ⟨rfl, rfl, rfl, fun h => Slice.noConfusion h⟩

/-! ## Categories -/

/-- Claim C3, evaluated: the node of `CREATE TABLE t (a INT)` is both a statement and a
data-definition node, and the metadata of its view holds `statement_type` but no
`ddl_type`. -/
theorem createTable_reports_only_statement_category :
    createTableStmt.ty.isStmt = true ∧ createTableStmt.ty.isDDL = true ∧
    ∃ view, convertToSimpleAST (.dyn createTableStmt) = some view ∧
      view.dataGet "statement_type" = some (.str "statement") ∧
      view.dataGet "ddl_type" = none :=
  ⟨rfl, rfl, _, rfl, by decide, by decide⟩

/-! ## Children -/

/-- Claim C4: the children of the view of a node are the concatenation, over its exported
fields in declaration order, of what each field contributes, and a slice field contributes
the concatenation, over its elements in index order, of what each element contributes. -/
theorem children_follow_field_and_element_order (d : Dyn) :
    ∃ view, convertToSimpleAST (.dyn d) = some view ∧
      view.Children.toList
        = (d.val.fields.filter Field.canInterface).flatMap fieldChildren ∧
      ∀ (name : String) (es : List FieldValue),
        fieldChildren (.mk name true (.slice es))
          = es.enum.flatMap (fun p => elemChildren name p.1 p.2) := by
  obtain ⟨s, hv, hs⟩ := convertDyn_children d
  refine ⟨_, hv, ?_, fieldChildren_slice⟩
  rw [flatMap_filter_exported]
  exact hs

/-- Claim C5, evaluated: the two arguments of `f(1, 2)` sit in the exported slice field
`Args`, whose elements are non-nil interfaces holding nodes; the field contributes no child
and the view of the call has no children. -/
theorem interface_slice_contributes_no_children :
    fieldChildren (.mk "Args" true
      (.slice [.iface (some (valueExpr "1")), .iface (some (valueExpr "2"))])) = [] ∧
    ∃ view, convertToSimpleAST (.dyn funcCallExpr) = some view ∧ view.Children.len = 0 :=
  ⟨rfl, _, rfl, rfl⟩

/-- Claim C6: running the loop body on an exported slice field appends children that
correspond, in order, to strictly increasing positions `js` of the slice; the child for
position `j` is the view of the element at index `j` with `field_name` and `array_index`
set, and its `array_index` is `j`. -/
theorem slice_children_carry_source_positions (name : String) (es : List FieldValue)
    (children : Slice ASTNode) :
    ∃ (out : Slice ASTNode) (cs : List ASTNode) (js : List Nat),
      fieldStep (.mk name true (.slice es)) children = some out ∧
      out.toList = children.toList ++ cs ∧
      List.Forall₂ (fun j c => IsElemChild name es j c ∧
        c.dataGet "array_index" = some (.int j)) js cs ∧
      arrayIndices cs = js.map (fun j => some (.int j)) ∧
      js.Pairwise (· < ·) := by
  obtain ⟨out, ho, hl⟩ := fieldStep_toList (.mk name true (.slice es)) children
  obtain ⟨js, hf, _, hpw⟩ := elemChildren_positions name es 0
  have hf' : List.Forall₂ (fun j c => IsElemChild name es j c ∧
      c.dataGet "array_index" = some (.int j)) js
      (fieldChildren (.mk name true (.slice es))) := by
    rw [fieldChildren_slice]
    refine hf.imp ?_
    intro j c ⟨_, d, view, c1, he, hv, h1, h2⟩
    have hc : IsElemChild name es j c := ⟨d, view, c1, by simpa using he, hv, h1, h2⟩
    exact ⟨hc, isElemChild_index name es j c hc⟩
  refine ⟨out, _, js, ho, hl, hf', ?_, hpw⟩
  have key : ∀ (js : List Nat) (cs : List ASTNode),
      List.Forall₂ (fun j c => IsElemChild name es j c ∧
        c.dataGet "array_index" = some (.int j)) js cs →
      arrayIndices cs = js.map (fun j => some (.int j)) := by
    intro js cs hrel
    induction hrel with
    | nil => rfl
    | cons hhead _ ih => simp [arrayIndices] at ih ⊢; exact ⟨hhead.2, ih⟩
  exact key _ _ hf'

/-- Claim C7 fails as stated: in a slice whose first element is a nil pointer and whose
second is present, the field contributes one child and its `array_index` is 1, not 0. -/
theorem slice_indices_have_gap_after_nil_element :
    (fieldChildren (.mk "Fields" true (.slice fieldsWithNilFirst))).length = 1 ∧
    arrayIndices (fieldChildren (.mk "Fields" true (.slice fieldsWithNilFirst)))
      = [some (.int 1)] ∧
    arrayIndices (fieldChildren (.mk "Fields" true (.slice fieldsWithNilFirst)))
      ≠ (List.range (fieldChildren (.mk "Fields" true (.slice fieldsWithNilFirst))).length).map
          (fun j => some (.int j)) := by
  decide

/-- Claim C7, amended: when every element of an exported slice field is a non-nil pointer
to a node, the field contributes one child per element and their `array_index` values are
0, 1, ..., k-1 in children order, k being the length of the slice. -/
theorem slice_indices_contiguous_when_all_present (name : String) (es : List FieldValue)
    (children : Slice ASTNode) (h : ∀ e ∈ es, e.isNodePtr = true) :
    ∃ (out : Slice ASTNode) (cs : List ASTNode),
      fieldStep (.mk name true (.slice es)) children = some out ∧
      out.toList = children.toList ++ cs ∧
      cs.length = es.length ∧
      arrayIndices cs = (List.range cs.length).map (fun j => some (.int j)) := by
  obtain ⟨out, ho, hl⟩ := fieldStep_toList (.mk name true (.slice es)) children
  have hidx := elemChildren_all_present name es h 0
  have hidx' : arrayIndices (fieldChildren (.mk name true (.slice es)))
      = (List.range es.length).map (fun j => some (DataVal.int j)) := by
    rw [fieldChildren_slice, List.enum, hidx, List.range_eq_range']
  have hlen : (fieldChildren (.mk name true (.slice es))).length = es.length := by
    have := congrArg List.length hidx'
    simpa [arrayIndices] using this
  exact ⟨out, _, ho, hl, hlen, by rw [hlen]; exact hidx'⟩

/-- Claim C7, amended, on a slice with two present elements appended to a nil slice. -/
theorem slice_indices_contiguous_when_all_present_witness :
    (∀ e ∈ fieldsAllPresent, e.isNodePtr = true) ∧
    ∃ (out : Slice ASTNode) (cs : List ASTNode),
      fieldStep (.mk "Fields" true (.slice fieldsAllPresent)) .nil = some out ∧
      out.toList = (Slice.nil : Slice ASTNode).toList ++ cs ∧
      cs.length = fieldsAllPresent.length ∧
      arrayIndices cs = (List.range cs.length).map (fun j => some (.int j)) :=
  ⟨by simp [fieldsAllPresent, FieldValue.isNodePtr],
   slice_indices_contiguous_when_all_present "Fields" fieldsAllPresent .nil
     (by simp [fieldsAllPresent, FieldValue.isNodePtr])⟩

/-- Claim C8: the children of the view of a node are the contributions of its exported
fields, and every child contributed by a field carries that field's name under
`field_name`, and carries an `array_index` entry exactly when the field has kind Slice. -/
theorem children_tagged_with_field_name_and_index (d : Dyn) :
    ∃ view, convertToSimpleAST (.dyn d) = some view ∧
      view.Children.toList
        = (d.val.fields.filter Field.canInterface).flatMap fieldChildren ∧
      ∀ f ∈ d.val.fields, ∀ c ∈ fieldChildren f,
        c.dataGet "field_name" = some (.str f.name) ∧
        (c.dataGet "array_index").isSome = f.val.isSlice := by
  obtain ⟨s, hv, hs⟩ := convertDyn_children d
  refine ⟨_, hv, ?_, fun f _ c hc => fieldChildren_tags f c hc⟩
  rw [flatMap_filter_exported]
  exact hs

/-- Claim C9, evaluated: the exported field `Expr` of this node is a non-nil interface
holding a nil `*ast.MaxValueExpr`; the field contributes a child for the nil pointer, and
the view of the node has that child, tagged `Expr`, itself without children. -/
theorem nil_pointer_in_interface_yields_child :
    nilMaxValueExpr.val = Value.nilPtr ∧
    (fieldChildren (.mk "Expr" true (.iface (some nilMaxValueExpr)))).map
      (fun c => (c.Type_, c.Text, c.Children.len)) = [("*ast.MaxValueExpr", "MAXVALUE", 0)] ∧
    ∃ view, convertToSimpleAST (.dyn parenWithNilPtrExpr) = some view ∧
      view.Children.toList.map ASTNode.Type_ = ["*ast.MaxValueExpr"] ∧
      view.Children.toList.map (fun c => c.dataGet "field_name") = [some (.str "Expr")] :=
  ⟨rfl, by decide, _, rfl, rfl, by decide⟩

/-! ## Writing an entry leaves the rest of a view alone -/

theorem ASTNode.setData_frame (n n' : ASTNode) (k : String) (v : DataVal)
    (h : n.setData k v = some n') :
    n'.Type_ = n.Type_ ∧ n'.Text = n.Text ∧ n'.Children = n.Children ∧ n'.Data ≠ none := by
  obtain ⟨t, x, c, d⟩ := n
  cases d with
  | none => simp [ASTNode.setData] at h
  | some m =>
    simp only [ASTNode.setData, Option.some.injEq] at h
    subst h
    simp [ASTNode.Type_, ASTNode.Text, ASTNode.Children, ASTNode.Data]

theorem ASTNode.depth_eq (n : ASTNode) : n.depth = childrenDepth n.Children.toList := by
  obtain ⟨t, x, c, d⟩ := n
  cases c <;> simp [ASTNode.depth, sliceDepth, ASTNode.Children, Slice.toList, childrenDepth]

theorem ASTNode.descendants_eq (n : ASTNode) :
    n.descendants = listDescendants n.Children.toList := by
  obtain ⟨t, x, c, d⟩ := n
  cases c <;>
    simp [ASTNode.descendants, sliceDescendants, ASTNode.Children, Slice.toList,
      listDescendants]

theorem childrenDepth_le (l : List ASTNode) (n : Nat) (h : ∀ c ∈ l, c.depth + 1 ≤ n) :
    childrenDepth l ≤ n := by
  induction l with
  | nil => simp [childrenDepth]
  | cons c rest ih =>
    simp only [childrenDepth, max_le_iff]
    exact ⟨h c (List.mem_cons_self _ _), ih (fun x hx => h x (List.mem_cons_of_mem _ hx))⟩

theorem mem_listDescendants (l : List ASTNode) (x : ASTNode) :
    x ∈ listDescendants l ↔ ∃ c ∈ l, x = c ∨ x ∈ c.descendants := by
  induction l with
  | nil => simp [listDescendants]
  | cons c rest ih =>
    simp only [listDescendants, List.mem_cons, List.mem_append, ih]
    constructor
    · rintro (h | h | ⟨c', hc', h⟩)
      · exact ⟨c, Or.inl rfl, Or.inl h⟩
      · exact ⟨c, Or.inl rfl, Or.inr h⟩
      · exact ⟨c', Or.inr hc', h⟩
    · rintro ⟨c', hc' | hc', h⟩
      · subst hc'
        rcases h with h | h
        · exact Or.inl h
        · exact Or.inr (Or.inl h)
      · exact Or.inr (Or.inr ⟨c', hc', h⟩)

/-! ## Induction along the references the normaliser follows -/

theorem structFields_sizeOf (v : Value) (fs : List Field) (h : structFields v = some fs) :
    sizeOf fs < sizeOf v := by
  cases v with
  | nilPtr => simp [structFields] at h
  | other => simp [structFields] at h
  | struct fs' =>
    simp only [structFields, Option.some.injEq] at h
    subst h
    simp
  | ptrTo e =>
    cases e with
    | struct fs' =>
      simp only [structFields, Option.some.injEq] at h
      subst h
      simp
      omega
    | _ => simp [structFields] at h

theorem IsChildRef.sizeOf_lt (d c : Dyn) (h : IsChildRef d c) : sizeOf c < sizeOf d := by
  obtain ⟨f, hf, _, hv⟩ := h
  obtain ⟨ty, r, val⟩ := d
  simp only [Dyn.val, Value.fields] at hf
  cases hs : structFields val with
  | none => simp [hs] at hf
  | some fs =>
    simp only [hs] at hf
    have h1 := structFields_sizeOf val fs hs
    have h2 := List.sizeOf_lt_of_mem hf
    obtain ⟨name, b, fv⟩ := f
    simp only [Field.val] at hv
    have h3 : sizeOf c < sizeOf fv := by
      rcases hv with hv | hv | ⟨es, hv, hmem⟩
      · subst hv; simp; omega
      · subst hv; simp; omega
      · subst hv
        have h4 := List.sizeOf_lt_of_mem hmem
        simp at h4 ⊢
        omega
    simp at h2 ⊢
    omega

/-- Induction on parse trees along `IsChildRef`. -/
theorem Dyn.induction_on_refs (P : Dyn → Prop)
    (step : ∀ d, (∀ c, IsChildRef d c → P c) → P d) : ∀ d, P d := by
  have key : ∀ n : Nat, ∀ d : Dyn, sizeOf d = n → P d := by
    intro n
    induction n using Nat.strong_induction_on with
    | _ n ih =>
      intro d hn
      apply step
      intro c hc
      exact ih (sizeOf c) (hn ▸ IsChildRef.sizeOf_lt d c hc) c rfl
  exact fun d => key (sizeOf d) d rfl

/-! ## Where the children of a view come from -/

theorem fieldChildren_mem (f : Field) (c' : ASTNode) (h : c' ∈ fieldChildren f) :
    f.canInterface = true ∧ ∃ c v,
      (f.val = .ptr (some c) ∨ f.val = .iface (some c) ∨
        ∃ es, f.val = .slice es ∧ FieldValue.ptr (some c) ∈ es) ∧
      convertDyn c = some v ∧ c'.Type_ = v.Type_ ∧ c'.Text = v.Text ∧
      c'.Children = v.Children ∧ c'.Data ≠ none := by
  obtain ⟨name, exported, fv⟩ := f
  cases exported with
  | false => simp [fieldChildren_unexported] at h
  | true =>
    refine ⟨rfl, ?_⟩
    cases fv with
    | ptr a =>
      cases a with
      | none => simp [fieldChildren, fieldStep, Slice.toList] at h
      | some d =>
        obtain ⟨view, c, hv, h1, hp, _⟩ := singleChild_spec name d
        have hc : c' = c := by
          simpa [fieldChildren, hp, Slice.append, Slice.toList] using h
        subst hc
        obtain ⟨ht, hx, hch, hd⟩ := ASTNode.setData_frame view c' _ _ h1
        exact ⟨d, view, Or.inl rfl, hv, ht, hx, hch, hd⟩
    | iface a =>
      cases a with
      | none => simp [fieldChildren, fieldStep, Slice.toList] at h
      | some d =>
        obtain ⟨view, c, hv, h1, _, hi⟩ := singleChild_spec name d
        have hc : c' = c := by
          simpa [fieldChildren, hi, Slice.append, Slice.toList] using h
        subst hc
        obtain ⟨ht, hx, hch, hd⟩ := ASTNode.setData_frame view c' _ _ h1
        exact ⟨d, view, Or.inr (Or.inl rfl), hv, ht, hx, hch, hd⟩
    | slice es =>
      rw [fieldChildren_slice] at h
      simp only [List.mem_flatMap] at h
      obtain ⟨⟨j, e⟩, hje, hc⟩ := h
      obtain ⟨d, view, c1, he, hv, h1, h2⟩ := elemChildren_mem name j e c' hc
      have hmem : e ∈ es := List.snd_mem_of_mem_enum hje
      subst he
      obtain ⟨ht1, hx1, hch1, _⟩ := ASTNode.setData_frame view c1 _ _ h1
      obtain ⟨ht2, hx2, hch2, hd2⟩ := ASTNode.setData_frame c1 c' _ _ h2
      exact ⟨d, view, Or.inr (Or.inr ⟨es, rfl, hmem⟩), hv, ht2.trans ht1, hx2.trans hx1,
        hch2.trans hch1, hd2⟩
    | nilPtr => simp [fieldChildren, fieldStep, Slice.toList] at h
    | nilIface => simp [fieldChildren, fieldStep, Slice.toList] at h
    | other => simp [fieldChildren, fieldStep, Slice.toList] at h

/-- Every child of the view of `d` is the view of a node `c` that `d` references, with
entries added to its `Data`, among them `field_name`. -/
theorem convertDyn_child_views (d : Dyn) (view : ASTNode) (h : convertDyn d = some view)
    (c' : ASTNode) (hc : c' ∈ view.Children.toList) :
    ∃ c v, IsChildRef d c ∧ convertDyn c = some v ∧ c'.Type_ = v.Type_ ∧ c'.Text = v.Text ∧
      c'.Children = v.Children ∧ c'.Data ≠ none ∧ (c'.dataGet "field_name").isSome = true := by
  obtain ⟨s, hv, hs⟩ := convertDyn_children d
  rw [hv] at h
  cases h
  simp only [ASTNode.Children, hs, List.mem_flatMap] at hc
  obtain ⟨f, hf, hcf⟩ := hc
  obtain ⟨hexp, c, v, href, hcv, ht, hx, hch, hd⟩ := fieldChildren_mem f c' hcf
  have htag := (fieldChildren_tags f c' hcf).1
  exact ⟨c, v, ⟨f, hf, hexp, href⟩, hcv, ht, hx, hch, hd, by simp [htag]⟩

/-! ## Depth -/

theorem le_fieldsDepth (fs : List Field) (f : Field) (h : f ∈ fs) :
    f.depth ≤ fieldsDepth fs := by
  induction fs with
  | nil => simp at h
  | cons g rest ih =>
    simp only [fieldsDepth]
    rcases List.mem_cons.mp h with h | h
    · subst h
      exact le_max_left _ _
    · exact le_trans (ih h) (le_max_right _ _)

theorem le_elemsDepth (es : List FieldValue) (e : FieldValue) (h : e ∈ es) :
    e.depth ≤ elemsDepth es := by
  induction es with
  | nil => simp at h
  | cons g rest ih =>
    simp only [elemsDepth]
    rcases List.mem_cons.mp h with h | h
    · subst h
      exact le_max_left _ _
    · exact le_trans (ih h) (le_max_right _ _)

theorem fieldsDepth_le_depth (v : Value) : fieldsDepth v.fields ≤ v.depth := by
  cases v with
  | nilPtr => simp [Value.fields, structFields, fieldsDepth]
  | other => simp [Value.fields, structFields, fieldsDepth]
  | struct fs => simp [Value.fields, structFields, Value.depth]
  | ptrTo e =>
    cases e <;> simp [Value.fields, structFields, fieldsDepth, Value.depth]

theorem IsChildRef.depth_lt (d c : Dyn) (h : IsChildRef d c) : c.depth + 1 ≤ d.depth := by
  obtain ⟨f, hf, _, hv⟩ := h
  have h1 := le_fieldsDepth _ f hf
  have h2 := fieldsDepth_le_depth d.val
  have h3 : d.depth = d.val.depth := by
    obtain ⟨ty, r, val⟩ := d
    simp [Dyn.depth, Dyn.val]
  obtain ⟨name, b, fv⟩ := f
  simp only [Field.val] at hv
  simp only [Field.depth] at h1
  have h4 : c.depth + 1 ≤ fv.depth := by
    rcases hv with hv | hv | ⟨es, hv, hmem⟩
    · subst hv; simp [FieldValue.depth]
    · subst hv; simp [FieldValue.depth]
    · subst hv
      have := le_elemsDepth es _ hmem
      simpa [FieldValue.depth] using this
  omega

theorem convertDyn_depth_le : ∀ d : Dyn, ∀ view, convertDyn d = some view →
    view.depth ≤ d.depth := by
  refine Dyn.induction_on_refs _ ?_
  intro d ih view hview
  rw [ASTNode.depth_eq]
  apply childrenDepth_le
  intro c' hc'
  obtain ⟨c, v, href, hcv, _, _, hch, _, _⟩ := convertDyn_child_views d view hview c' hc'
  have h1 := ih c href v hcv
  have h2 := IsChildRef.depth_lt d c href
  rw [ASTNode.depth_eq, hch, ← ASTNode.depth_eq]
  omega

/-! ## Everything below a view is tagged -/

theorem convertDyn_descendants_tagged : ∀ d : Dyn, ∀ view, convertDyn d = some view →
    ∀ x ∈ view.descendants, (x.dataGet "field_name").isSome = true := by
  refine Dyn.induction_on_refs _ ?_
  intro d ih view hview x hx
  rw [ASTNode.descendants_eq, mem_listDescendants] at hx
  obtain ⟨c', hc', hx⟩ := hx
  obtain ⟨c, v, href, hcv, _, _, hch, _, htag⟩ := convertDyn_child_views d view hview c' hc'
  rcases hx with hx | hx
  · subst hx
    exact htag
  · rw [ASTNode.descendants_eq, hch, ← ASTNode.descendants_eq] at hx
    exact ih c href v hcv x hx

/-! ## Categories, key by key -/

theorem categoryData_get (ty : NodeType) (k : String) :
    DataMap.get (categoryData ty) k =
      if ty.isStmt then (if k = "statement_type" then some (.str "statement") else none)
      else if ty.isExpr then (if k = "expression_type" then some (.str "expression") else none)
      else if ty.isDDL then (if k = "ddl_type" then some (.str "ddl") else none)
      else if ty.isDML then (if k = "dml_type" then some (.str "dml") else none)
      else none := by
  have hs : ∀ (key : String) (v : DataVal),
      DataMap.get (DataMap.set [] key v) k = if k = key then some v else none := by
    intro key v
    rw [DataMap.get_set]
    by_cases h : key = k
    · subst h
      simp
    · have h' : ¬ k = key := fun e => h e.symm
      simp [h, h', DataMap.get]
  unfold categoryData
  by_cases h1 : ty.isStmt = true
  · simp only [h1, if_true, hs]
  · by_cases h2 : ty.isExpr = true
    · simp [h1, h2, hs]
    · by_cases h3 : ty.isDDL = true
      · simp [h1, h2, h3, hs]
      · by_cases h4 : ty.isDML = true
        · simp [h1, h2, h3, h4, hs]
        · simp [h1, h2, h3, h4, DataMap.get]

theorem categoryData_keys (ty : NodeType) (k : String)
    (h : DataMap.get (categoryData ty) k ≠ none) :
    k ∈ ["statement_type", "expression_type", "ddl_type", "dml_type"] := by
  rw [categoryData_get] at h
  split_ifs at h <;> simp_all

theorem forall₂_exists_left {α β : Type} (R : α → β → Prop) (l : List α) (m : List β)
    (h : List.Forall₂ R l m) : ∀ b ∈ m, ∃ a ∈ l, R a b := by
  induction h with
  | nil => simp
  | cons hab _ ih =>
    intro b hb
    rcases List.mem_cons.mp hb with hb | hb
    · subst hb
      exact ⟨_, List.mem_cons_self _ _, hab⟩
    · obtain ⟨a, ha, hr⟩ := ih b hb
      exact ⟨a, List.mem_cons_of_mem _ ha, hr⟩

/-! ## The normaliser when `Restore` may panic -/

theorem sliceLoopOrPanic_eq (panics : Dyn → Bool) (name : String) (es : List FieldValue)
    (h : ∀ c, FieldValue.ptr (some c) ∈ es → convertDynOrPanic panics c = convertDyn c) :
    ∀ (j : Nat) (acc : Slice ASTNode),
      sliceLoopOrPanic panics name j es acc = sliceLoop name j es acc := by
  induction es with
  | nil => intro j acc; simp [sliceLoopOrPanic, sliceLoop]
  | cons e rest ih =>
    intro j acc
    have ih' := ih (fun c hc => h c (List.mem_cons_of_mem _ hc))
    cases e with
    | ptr a =>
      cases a with
      | none => simp [sliceLoopOrPanic, sliceLoop, ih']
      | some d =>
        have hd := h d (List.mem_cons_self _ _)
        simp only [sliceLoopOrPanic, sliceLoop, hd]
        cases convertDyn d with
        | none => rfl
        | some child =>
          simp only
          cases child.setData "field_name" (.str name) with
          | none => rfl
          | some c1 =>
            simp only
            cases c1.setData "array_index" (.int j) with
            | none => rfl
            | some c2 => exact ih' (j + 1) _
    | _ => simp [sliceLoopOrPanic, sliceLoop, ih']

theorem fieldStepOrPanic_eq (panics : Dyn → Bool) (f : Field) (acc : Slice ASTNode)
    (h : ∀ c, f.canInterface = true →
      (f.val = .ptr (some c) ∨ f.val = .iface (some c) ∨
        ∃ es, f.val = .slice es ∧ FieldValue.ptr (some c) ∈ es) →
      convertDynOrPanic panics c = convertDyn c) :
    fieldStepOrPanic panics f acc = fieldStep f acc := by
  obtain ⟨name, exported, fv⟩ := f
  cases exported with
  | false => simp [fieldStepOrPanic, fieldStep]
  | true =>
    cases fv with
    | ptr a =>
      cases a with
      | none => simp [fieldStepOrPanic, fieldStep]
      | some d =>
        have hd := h d rfl (Or.inl rfl)
        simp only [fieldStepOrPanic, fieldStep, hd]
    | iface a =>
      cases a with
      | none => simp [fieldStepOrPanic, fieldStep]
      | some d =>
        have hd := h d rfl (Or.inr (Or.inl rfl))
        simp only [fieldStepOrPanic, fieldStep, hd]
    | slice es =>
      simp only [fieldStepOrPanic, fieldStep]
      exact sliceLoopOrPanic_eq panics name es
        (fun c hc => h c rfl (Or.inr (Or.inr ⟨es, rfl, hc⟩))) 0 acc
    | nilPtr => simp [fieldStepOrPanic, fieldStep]
    | nilIface => simp [fieldStepOrPanic, fieldStep]
    | other => simp [fieldStepOrPanic, fieldStep]

theorem fieldsLoopOrPanic_eq (panics : Dyn → Bool) (fs : List Field)
    (h : ∀ f ∈ fs, ∀ c, f.canInterface = true →
      (f.val = .ptr (some c) ∨ f.val = .iface (some c) ∨
        ∃ es, f.val = .slice es ∧ FieldValue.ptr (some c) ∈ es) →
      convertDynOrPanic panics c = convertDyn c) :
    ∀ acc : Slice ASTNode, fieldsLoopOrPanic panics fs acc = fieldsLoop fs acc := by
  induction fs with
  | nil => intro acc; simp [fieldsLoopOrPanic, fieldsLoop]
  | cons f rest ih =>
    intro acc
    have hf := fieldStepOrPanic_eq panics f acc (h f (List.mem_cons_self _ _))
    have ih' := ih (fun g hg => h g (List.mem_cons_of_mem _ hg))
    simp only [fieldsLoopOrPanic, fieldsLoop, hf]
    cases fieldStep f acc with
    | none => rfl
    | some mid => exact ih' mid

theorem extractValueOrPanic_fields (panics : Dyn → Bool) (v : Value) :
    extractValueOrPanic panics v = fieldsLoopOrPanic panics v.fields .nil := by
  cases v with
  | nilPtr => simp [extractValueOrPanic, Value.fields, structFields, fieldsLoopOrPanic]
  | other => simp [extractValueOrPanic, Value.fields, structFields, fieldsLoopOrPanic]
  | struct fs => simp [extractValueOrPanic, Value.fields, structFields]
  | ptrTo e =>
    cases e <;> simp [extractValueOrPanic, Value.fields, structFields, fieldsLoopOrPanic]

theorem convertDynOrPanic_unfold (panics : Dyn → Bool) (d : Dyn) :
    convertDynOrPanic panics d =
      if panics d then none
      else
        match extractValueOrPanic panics d.val with
        | none => none
        | some children =>
          some (.mk d.ty.name (restoreText d.restore) children (some (categoryData d.ty))) := by
  obtain ⟨ty, r, val⟩ := d
  simp [convertDynOrPanic, Dyn.ty, Dyn.restore, Dyn.val]

theorem convertDyn_unfold (d : Dyn) :
    convertDyn d =
      match extractValue d.val with
      | none => none
      | some children =>
        some (.mk d.ty.name (restoreText d.restore) children (some (categoryData d.ty))) := by
  obtain ⟨ty, r, val⟩ := d
  simp [convertDyn, Dyn.ty, Dyn.restore, Dyn.val]

/-- A panic in `Restore` on the node itself ends the conversion. -/
theorem convertDynOrPanic_of_panics (panics : Dyn → Bool) (d : Dyn) (h : panics d = true) :
    convertDynOrPanic panics d = none := by
  rw [convertDynOrPanic_unfold, h]
  rfl

/-- When `Restore` returns on every node the walk reaches, the conversion is the one of
`convertDyn`. -/
theorem convertDynOrPanic_eq (panics : Dyn → Bool) : ∀ d : Dyn,
    (∀ c, Reaches d c → panics c = false) → convertDynOrPanic panics d = convertDyn d := by
  refine Dyn.induction_on_refs _ ?_
  intro d ih hreach
  have hd : panics d = false := hreach d Relation.ReflTransGen.refl
  have hfields : fieldsLoopOrPanic panics d.val.fields .nil = fieldsLoop d.val.fields .nil := by
    apply fieldsLoopOrPanic_eq
    intro f hf c hexp href
    have hchild : IsChildRef d c := ⟨f, hf, hexp, href⟩
    apply ih c hchild
    intro c' hc'
    exact hreach c' (Relation.ReflTransGen.head hchild hc')
  rw [convertDynOrPanic_unfold, convertDyn_unfold, hd, extractValueOrPanic_fields, hfields,
    extractValue_fields]
  rfl

theorem Reaches.cases_head (d c : Dyn) (h : Reaches d c) :
    c = d ∨ ∃ m, IsChildRef d m ∧ Reaches m c := by
  rcases Relation.ReflTransGen.cases_head h with h | h
  · exact Or.inl h.symm
  · exact Or.inr h

theorem isChildRef_valueExpr (text : String) (c : Dyn) : ¬ IsChildRef (valueExpr text) c := by
  rintro ⟨f, hf, hexp, href⟩
  simp [valueExpr, Dyn.val, Value.fields, structFields] at hf
  rcases hf with rfl | rfl | rfl <;> simp [Field.val] at href

theorem isChildRef_selectField (text : String) (e c : Dyn)
    (h : IsChildRef (selectField text e) c) : c = e := by
  obtain ⟨f, hf, hexp, href⟩ := h
  simp [selectField, Dyn.val, Value.fields, structFields] at hf
  rcases hf with rfl | rfl | rfl | rfl | rfl <;> simp [Field.val] at href
  exact href.symm
theorem reaches_selectField_returns (c : Dyn)
    (hc : Reaches (selectField "1" (valueExpr "1")) c) : panicsOnNilElement c = false := by
  rcases Reaches.cases_head _ _ hc with rfl | ⟨m, hm, hc⟩
  · decide
  · have := isChildRef_selectField _ _ _ hm
    subst this
    rcases Reaches.cases_head _ _ hc with rfl | ⟨m, hm, _⟩
    · decide
    · exact absurd hm (isChildRef_valueExpr _ _)

/-! ## Safety and the sentinel -/

/-- Where `Restore` returns on every node, `convertToSimpleAST` returns a view on every
node, and every child that `extractChildNodes` writes to, being the view of a non-nil node,
has a non-nil `Data` map, so that the writes of `field_name` and then `array_index`
succeed. -/
theorem convertToSimpleAST_never_aborts (node : Node) :
    (∃ view, convertToSimpleAST node = some view) ∧
    ∀ d : Dyn, ∃ child, convertToSimpleAST (.dyn d) = some child ∧ child.Data ≠ none ∧
      ∀ (name : String) (j : Nat), ∃ c1 c2,
        child.setData "field_name" (.str name) = some c1 ∧
        c1.setData "array_index" (.int j) = some c2 := by
  have hdyn : ∀ d : Dyn, ∃ child, convertToSimpleAST (.dyn d) = some child ∧
      child.Data ≠ none ∧ ∀ (name : String) (j : Nat), ∃ c1 c2,
        child.setData "field_name" (.str name) = some c1 ∧
        c1.setData "array_index" (.int j) = some c2 := by
    intro d
    obtain ⟨s, _, hv⟩ := convertDyn_total d
    refine ⟨_, hv, by simp [ASTNode.Data], ?_⟩
    intro name j
    exact ⟨_, _, rfl, rfl⟩
  refine ⟨?_, hdyn⟩
  cases node with
  | nil => exact ⟨_, rfl⟩
  | dyn d =>
    obtain ⟨child, hc, _⟩ := hdyn d
    exact ⟨child, hc⟩

/-- Claim C11 fails as stated: a `*ast.FieldList` whose `Fields` holds a nil pointer is a
node with a nil field; `Restore` panics on it at line 41, and the conversion returns no
view. -/
theorem restore_panic_aborts_conversion :
    panicsOnNilElement (fieldList "" fieldsWithNilFirst) = true ∧
    ¬ ∃ view, convertToSimpleASTOrPanic panicsOnNilElement
        (.dyn (fieldList "" fieldsWithNilFirst)) = some view := by
  refine ⟨by decide, ?_⟩
  rintro ⟨view, h⟩
  have hp : panicsOnNilElement (fieldList "" fieldsWithNilFirst) = true := by decide
  simp [convertToSimpleASTOrPanic, convertDynOrPanic_of_panics _ _ hp] at h

/-- Claim C11, amended: when `Restore` returns, with text or with an error, on every node
the walk reaches, `convertToSimpleAST` returns a view, the same as in the model without
panics, whatever the kind of the underlying values and whatever the fields hold; and the
view of every node reached, hence every child that `extractChildNodes` writes to, has a
non-nil `Data` map, so that the writes of `field_name` and then `array_index` succeed. -/
theorem never_aborts_when_restore_returns (panics : Dyn → Bool) (node : Node)
    (h : ∀ d c, node = .dyn d → Reaches d c → panics c = false) :
    (∃ view, convertToSimpleASTOrPanic panics node = some view ∧
      convertToSimpleAST node = some view) ∧
    ∀ d c, node = .dyn d → Reaches d c →
      ∃ child, convertDynOrPanic panics c = some child ∧ child.Data ≠ none ∧
        ∀ (name : String) (j : Nat), ∃ c1 c2,
          child.setData "field_name" (.str name) = some c1 ∧
          c1.setData "array_index" (.int j) = some c2 := by
  have hreached : ∀ d c, node = .dyn d → Reaches d c →
      convertDynOrPanic panics c = convertDyn c := by
    intro d c hd hc
    apply convertDynOrPanic_eq
    intro c' hc'
    exact h d c' hd (Relation.ReflTransGen.trans hc hc')
  constructor
  · cases node with
    | nil => exact ⟨_, rfl, rfl⟩
    | dyn d =>
      obtain ⟨s, _, hv⟩ := convertDyn_total d
      have heq := hreached d d rfl Relation.ReflTransGen.refl
      exact ⟨_, by simp only [convertToSimpleASTOrPanic, heq]; exact hv, hv⟩
  · intro d c hd hc
    obtain ⟨child, hchild, hdata, hwrites⟩ := (convertToSimpleAST_never_aborts .nil).2 c
    exact ⟨child, by rw [hreached d c hd hc]; exact hchild, hdata, hwrites⟩

/-- Claim C11, amended, on a select-list item with an unexported field, a nil pointer field,
scalar fields and one expression below it, `Restore` panicking on other nodes but on none of
these two. -/
theorem never_aborts_when_restore_returns_witness :
    (∀ d c, Node.dyn (selectField "1" (valueExpr "1")) = .dyn d → Reaches d c →
      panicsOnNilElement c = false) ∧
    ((∃ view, convertToSimpleASTOrPanic panicsOnNilElement
        (.dyn (selectField "1" (valueExpr "1"))) = some view ∧
      convertToSimpleAST (.dyn (selectField "1" (valueExpr "1"))) = some view) ∧
    ∀ d c, Node.dyn (selectField "1" (valueExpr "1")) = .dyn d → Reaches d c →
      ∃ child, convertDynOrPanic panicsOnNilElement c = some child ∧ child.Data ≠ none ∧
        ∀ (name : String) (j : Nat), ∃ c1 c2,
          child.setData "field_name" (.str name) = some c1 ∧
          c1.setData "array_index" (.int j) = some c2) :=
  ⟨fun _ c hd hc => reaches_selectField_returns c (Node.dyn.inj hd ▸ hc),
   never_aborts_when_restore_returns panicsOnNilElement (.dyn (selectField "1" (valueExpr "1")))
     (fun _ c hd hc => reaches_selectField_returns c (Node.dyn.inj hd ▸ hc))⟩

/-- Claim C12: for a node whose `Restore` succeeds with `text` the view has that text; for
the same node with a failing `Restore` the view has the empty text, and the same type tag,
metadata and children. -/
theorem restore_failure_only_empties_text (ty : NodeType) (text : String) (val : Value) :
    ∃ rendered failed,
      convertToSimpleAST (.dyn (.mk ty (.ok text) val)) = some rendered ∧
      convertToSimpleAST (.dyn (.mk ty .err val)) = some failed ∧
      rendered.Text = text ∧ failed.Text = "" ∧
      failed.Type_ = rendered.Type_ ∧ failed.Data = rendered.Data ∧
      failed.Children = rendered.Children := by
  obtain ⟨s, hs, hv⟩ := convertDyn_total (.mk ty (.ok text) val)
  obtain ⟨s', hs', hv'⟩ := convertDyn_total (.mk ty .err val)
  have hss : s' = s := by
    simp only [Dyn.val] at hs hs'
    rw [hs] at hs'
    exact (Option.some.inj hs').symm
  subst hss
  exact ⟨_, _, hv, hv', rfl, rfl, rfl, rfl, rfl⟩

/-- The nil interface gives the zero value `ASTNode{}`, with empty type tag and text, nil
children and nil `Data`; the view of any dynamic value differs from it, having a non-nil
`Data`, and a non-empty type tag when the type's name is not empty. -/
theorem nil_node_yields_distinct_sentinel :
    convertToSimpleAST .nil = some ASTNode.zero ∧
    ASTNode.zero.Type_ = "" ∧ ASTNode.zero.Text = "" ∧
    ASTNode.zero.Children = .nil ∧ ASTNode.zero.Data = none ∧
    ∀ d : Dyn, ∃ view, convertToSimpleAST (.dyn d) = some view ∧ view.Data ≠ none ∧
      view ≠ ASTNode.zero ∧ (d.ty.name ≠ "" → view.Type_ ≠ ASTNode.zero.Type_) := by
  refine ⟨rfl, rfl, rfl, rfl, rfl, ?_⟩
  intro d
  obtain ⟨s, _, hv⟩ := convertDyn_total d
  refine ⟨_, hv, by simp [ASTNode.Data], ?_, ?_⟩
  · intro h
    have := congrArg ASTNode.Data h
    simp [ASTNode.Data, ASTNode.zero] at this
  · intro hne
    simpa [ASTNode.Type_, ASTNode.zero] using hne

/-- Claim C13, evaluated: a nil `*ast.MaxValueExpr` passed as a node is an absent reference,
yet the test of line 32 is false for it and `convertToSimpleAST` returns, not the zero value
`ASTNode{}`, but a view with a type tag, a text and a category entry. -/
theorem nil_pointer_node_gets_a_view_not_the_sentinel :
    nilMaxValueExpr.val = Value.nilPtr ∧
    ∃ view, convertToSimpleAST (.dyn nilMaxValueExpr) = some view ∧
      view ≠ ASTNode.zero ∧
      view.Type_ = "*ast.MaxValueExpr" ∧ view.Text = "MAXVALUE" ∧
      view.dataGet "expression_type" = some (.str "expression") ∧
      view.Children.len = 0 := by
  refine ⟨rfl, _, rfl, ?_, rfl, rfl, by decide, rfl⟩
  intro h
  have hdata := congrArg ASTNode.Data h
  simp [ASTNode.Data, ASTNode.zero] at hdata

/-! ## Counting children -/

/-- Claim C14, evaluated: the exported fields of the call `f(1, 2)` hold two present node
references, both in the collection `Args`, and the view of the call has no child. -/
theorem funcCall_has_fewer_children_than_node_refs :
    (funcCallExpr.val.fields.map specPresentRefs).sum = 2 ∧
    ∃ view, convertToSimpleAST (.dyn funcCallExpr) = some view ∧ view.Children.len = 0 :=
  ⟨rfl, _, rfl, rfl⟩

/-! ## Type tags -/

/-- Claim C15 fails as stated: two nodes of distinct types whose names print alike get the
same type tag. -/
theorem distinct_types_can_share_a_tag :
    identExprType ≠ identStmtType ∧
    ∃ v1 v2,
      convertToSimpleAST (.dyn (.mk identExprType (.ok "x") (.ptrTo (.struct [])))) = some v1 ∧
      convertToSimpleAST (.dyn (.mk identStmtType (.ok "x") (.ptrTo (.struct [])))) = some v2 ∧
      v1.Type_ = v2.Type_ :=
  ⟨by decide, _, _, rfl, rfl, rfl⟩

/-- Claim C15, amended: the type tag of the view of a non-nil node is the printed name of
its type, so two nodes of one type get the same tag whatever `Restore` does and whatever
their fields hold, and two nodes whose types print differently get different tags. -/
theorem type_tag_is_printed_type_name (ty : NodeType) (r1 r2 : RestoreResult)
    (val1 val2 : Value) :
    ∃ v1 v2,
      convertToSimpleAST (.dyn (.mk ty r1 val1)) = some v1 ∧
      convertToSimpleAST (.dyn (.mk ty r2 val2)) = some v2 ∧
      v1.Type_ = ty.name ∧ v2.Type_ = v1.Type_ ∧
      ∀ d : Dyn, d.ty.name ≠ ty.name →
        ∃ v, convertToSimpleAST (.dyn d) = some v ∧ v.Type_ ≠ v1.Type_ := by
  obtain ⟨s1, _, h1⟩ := convertDyn_total (.mk ty r1 val1)
  obtain ⟨s2, _, h2⟩ := convertDyn_total (.mk ty r2 val2)
  refine ⟨_, _, h1, h2, rfl, rfl, ?_⟩
  intro d hne
  obtain ⟨s, _, h⟩ := convertDyn_total d
  exact ⟨_, h, by simpa [ASTNode.Type_, Dyn.ty] using hne⟩

/-! ## Depth -/

/-- Claim C16: on every node `convertToSimpleAST` returns a view, and the depth of that view
is at most the nesting depth of the node. -/
theorem view_depth_bounded_by_node_depth (node : Node) :
    ∃ view, convertToSimpleAST node = some view ∧ view.depth ≤ node.depth := by
  cases node with
  | nil => exact ⟨_, rfl, by decide⟩
  | dyn d =>
    obtain ⟨s, _, hv⟩ := convertDyn_total d
    exact ⟨_, hv, convertDyn_depth_le d _ hv⟩

/-! ## Category markers -/

/-- Claim C17: the metadata of the view of a non-nil node holds at most one entry, chosen by
priority: `statement_type` for a statement; otherwise `expression_type` for an expression;
otherwise `ddl_type` for a data-definition node; otherwise `dml_type` for a
data-manipulation node; otherwise no entry. -/
theorem category_marker_by_priority (d : Dyn) :
    ∃ view, convertToSimpleAST (.dyn d) = some view ∧ ∀ k : String,
      view.dataGet k =
        if d.ty.isStmt then
          (if k = "statement_type" then some (.str "statement") else none)
        else if d.ty.isExpr then
          (if k = "expression_type" then some (.str "expression") else none)
        else if d.ty.isDDL then (if k = "ddl_type" then some (.str "ddl") else none)
        else if d.ty.isDML then (if k = "dml_type" then some (.str "dml") else none)
        else none := by
  obtain ⟨s, _, hv⟩ := convertDyn_total d
  refine ⟨_, hv, ?_⟩
  intro k
  rw [convertDyn_dataGet d _ hv k, categoryData_get]

/-! ## Tags at and below the top level -/

/-- Claim C18: in the envelope built when the parser returns no error, every view in `AST`
has neither a `field_name` nor an `array_index` entry, all its entries being category
markers, and every view below it has a `field_name` entry. -/
theorem top_level_untagged_descendants_tagged (parse : String → ParseOutput)
    (sqlStr : String) (h : (parse sqlStr).err = none) :
    ∃ astNodes : Slice ASTNode,
      parse_sql parse sqlStr = some { Success := true, Error := "", AST := some astNodes } ∧
      ∀ view ∈ astNodes.toList,
        view.dataGet "field_name" = none ∧ view.dataGet "array_index" = none ∧
        (∀ k, view.dataGet k ≠ none →
          k ∈ ["statement_type", "expression_type", "ddl_type", "dml_type"]) ∧
        ∀ x ∈ view.descendants, (x.dataGet "field_name").isSome = true := by
  obtain ⟨out, views, ho, hl, hf⟩ := stmtsLoop_toList (parse sqlStr).stmts .nil
  have hviews : out.toList = views := by simpa [Slice.toList] using hl
  refine ⟨out, by simp [parse_sql, h, ho], ?_⟩
  intro view hview
  rw [hviews] at hview
  obtain ⟨stmt, _, hconv⟩ := forall₂_exists_left _ _ _ hf view hview
  cases stmt with
  | nil =>
    simp only [convertToSimpleAST, Option.some.injEq] at hconv
    subst hconv
    refine ⟨rfl, rfl, ?_, ?_⟩
    · intro k hk
      exact absurd rfl hk
    · intro x hx
      simp [ASTNode.zero, ASTNode.descendants, sliceDescendants] at hx
  | dyn d =>
    have hget := convertDyn_dataGet d view hconv
    refine ⟨?_, ?_, ?_, convertDyn_descendants_tagged d view hconv⟩
    · rw [hget, categoryData_get_field_name]
    · rw [hget, categoryData_get_array_index]
    · intro k hk
      rw [hget] at hk
      exact categoryData_keys d.ty k hk

/-- Claim C18 on the text `SELECT 1; SELECT 2`, for which the sample parser returns two
statements and no error. -/
theorem top_level_untagged_descendants_tagged_witness :
    (sampleParse "SELECT 1; SELECT 2").err = none ∧
    ∃ astNodes : Slice ASTNode,
      parse_sql sampleParse "SELECT 1; SELECT 2"
        = some { Success := true, Error := "", AST := some astNodes } ∧
      ∀ view ∈ astNodes.toList,
        view.dataGet "field_name" = none ∧ view.dataGet "array_index" = none ∧
        (∀ k, view.dataGet k ≠ none →
          k ∈ ["statement_type", "expression_type", "ddl_type", "dml_type"]) ∧
        ∀ x ∈ view.descendants, (x.dataGet "field_name").isSome = true :=
  ⟨by decide, top_level_untagged_descendants_tagged sampleParse "SELECT 1; SELECT 2"
    (by decide)⟩

end MysqlParser
